import Mathlib

/-!
Verification development for the `marshal` package: a shallow embedding of the
graph encoder (`marshal.go`), the graph decoder (`unmarshal.go`) and the type
registry (`types`-related code in `marshal.go`), together with theorems about
the claims of the specification.

Modelling conventions:
* Go runtime values are modelled by `Val`.  The numeric families are collapsed
  to their kinds (`int` for all signed kinds, `uint` for all unsigned kinds
  including `uintptr`, `float` -- modelled by exact rationals -- for the float
  kinds; the complex kinds behave identically to the other scalar kinds in
  every branch of the source and are elided).  Only exported struct fields are
  modelled, since both traversals skip unexported fields.
* Pointer identity is modelled by a heap `List Val`; a pointer value holds an
  address (`none` = nil pointer).  `v.UnsafePointer()` is the address.
* The flat `[]any` object list is modelled by `List Obj`.  A Go `nil`
  interface entry is `Obj.null`.  Go `map[K]any` values are `Obj.map` with an
  association list of entries (Go map iteration order is modelled by list
  order; `SetMapIndex` is modelled by replace-or-append insertion).
* `pan.Panic`/`pan.Recover` and the raw `panic(...)` sites both abort the
  whole call; both are modelled as a fatal `Err` outcome.  Raw `panic(src)`
  sites (the `// TODO` sites of `unmarshal.go`) are `Err.badSource`.
* The recursive traversals are given a fuel parameter; running out of fuel is
  the distinguished outcome `fuelOut` (a model artifact, not a program
  outcome).  Termination of the source recursion is expressed as the
  existence of sufficient fuel.
-/

/-- Go types at kind granularity: the shape information the two traversals
dispatch on (`reflect.Kind` plus the element/field structure they consult). -/
inductive Ty where
  | bool : Ty
  | int : Ty
  | uint : Ty
  | float : Ty
  | string : Ty
  | strukt (fields : List (String × Ty)) : Ty
  | array (n : Nat) (elem : Ty) : Ty
  | slice (elem : Ty) : Ty
  | map (key : Ty) (elem : Ty) : Ty
  | iface : Ty
  | ptr (elem : Ty) : Ty
  | func : Ty
  | chan : Ty
  | rawPointer : Ty

/-- Go runtime values.  A `map` value records its key and element types (the
source consults `v.Type().Key()` even for nil maps); an `iface` value records
the concrete type of its payload; a `ptr` value holds a heap address;
`unsupported` covers values of func/chan/unsafe-pointer kinds. -/
inductive Val where
  | bool (b : Bool) : Val
  | int (i : Int) : Val
  | uint (n : Nat) : Val
  | float (q : Rat) : Val
  | str (s : String) : Val
  | strukt (fields : List (String × Val)) : Val
  | array (elems : List Val) : Val
  | slice (elems : Option (List Val)) : Val
  | map (kt et : Ty) (entries : Option (List (Val × Val))) : Val
  | iface (v : Option (Ty × Val)) : Val
  | ptr (addr : Option Nat) : Val
  | unsupported (t : Ty) : Val

/-- Entries of the flat object list, and the `any` results of the encoder:
null, a scalar, a `[]any` list, or a `map[K]any` with its key type. -/
inductive Obj where
  | null : Obj
  | bool (b : Bool) : Obj
  | int (i : Int) : Obj
  | uint (n : Nat) : Obj
  | float (q : Rat) : Obj
  | str (s : String) : Obj
  | list (xs : List Obj) : Obj
  | map (kt : Ty) (entries : List (Val × Obj)) : Obj

mutual

/-- Structural boolean equality on `Ty` (Go type identity at the model's
granularity), written by hand because nested-inductive deriving is
unavailable here. -/
def tyBeq : Ty → Ty → Bool
  | .bool, .bool => true
  | .int, .int => true
  | .uint, .uint => true
  | .float, .float => true
  | .string, .string => true
  | .strukt fs, .strukt gs => tyFieldsBeq fs gs
  | .array n a, .array m b => n == m && tyBeq a b
  | .slice a, .slice b => tyBeq a b
  | .map k a, .map l b => tyBeq k l && tyBeq a b
  | .iface, .iface => true
  | .ptr a, .ptr b => tyBeq a b
  | .func, .func => true
  | .chan, .chan => true
  | .rawPointer, .rawPointer => true
  | _, _ => false
termination_by structural a => a

/-- Pointwise `tyBeq` on struct field lists. -/
def tyFieldsBeq : List (String × Ty) → List (String × Ty) → Bool
  | [], [] => true
  | (n, t) :: rest, (m, u) :: rest2 => n == m && tyBeq t u && tyFieldsBeq rest rest2
  | _, _ => false
termination_by structural a => a

end

instance : BEq Ty := ⟨tyBeq⟩

mutual

/-- Structural boolean equality on `Val`: Go `==` / key identity at the
model's granularity. -/
def valBeq : Val → Val → Bool
  | .bool a, .bool b => a == b
  | .int a, .int b => a == b
  | .uint a, .uint b => a == b
  | .float a, .float b => a == b
  | .str a, .str b => a == b
  | .strukt fs, .strukt gs => valFieldsBeq fs gs
  | .array xs, .array ys => valListBeq xs ys
  | .slice none, .slice none => true
  | .slice (some xs), .slice (some ys) => valListBeq xs ys
  | .map k e none, .map l f none => tyBeq k l && tyBeq e f
  | .map k e (some xs), .map l f (some ys) =>
    tyBeq k l && tyBeq e f && valEntriesBeq xs ys
  | .iface none, .iface none => true
  | .iface (some (t, v)), .iface (some (u, w)) => tyBeq t u && valBeq v w
  | .ptr a, .ptr b => a == b
  | .unsupported t, .unsupported u => tyBeq t u
  | _, _ => false
termination_by structural a => a

/-- Pointwise `valBeq` on field lists. -/
def valFieldsBeq : List (String × Val) → List (String × Val) → Bool
  | [], [] => true
  | (n, v) :: rest, (m, w) :: rest2 => n == m && valBeq v w && valFieldsBeq rest rest2
  | _, _ => false
termination_by structural a => a

/-- Pointwise `valBeq` on value lists. -/
def valListBeq : List Val → List Val → Bool
  | [], [] => true
  | v :: rest, w :: rest2 => valBeq v w && valListBeq rest rest2
  | _, _ => false
termination_by structural a => a

/-- Pointwise `valBeq` on map entry lists. -/
def valEntriesBeq : List (Val × Val) → List (Val × Val) → Bool
  | [], [] => true
  | (k, v) :: rest, (l, w) :: rest2 =>
    valBeq k l && valBeq v w && valEntriesBeq rest rest2
  | _, _ => false
termination_by structural a => a

end

instance : BEq Val := ⟨valBeq⟩

/-- Errors: one constructor per distinct abort site of the source.
`badSource` stands for the raw `panic(src) // TODO` sites of `unmarshal.go`,
`parseFailed` for `Must(strconv.ParseUint(...))` failing. -/
inductive Err where
  | structAsValue : Err
  | rootNotSupported : Err
  | typeNotSupported (t : Ty) : Err
  | typeNotRegistered (t : Ty) : Err
  | secondarySliceElement : Err
  | registeredTypeFailed : Err
  | noName (t : Ty) : Err
  | typeAlreadyRegistered (t : Ty) : Err
  | nameAlreadyRegistered (n : String) : Err
  | destinationNotPointer : Err
  | nothingToUnmarshal : Err
  | nameNotRegistered (n : String) : Err
  | badSource : Err
  | parseFailed : Err
  | targetNotSupported (t : Ty) : Err

/-! ## Type registry (`Types`) -/

/-- The bidirectional registry; `typeNames` and `nameTypes` are the two
lookup tables, modelled as association lists. -/
structure Types where
  typeNames : List (Ty × String)
  nameTypes : List (String × Ty)

/-- Constructs an empty registry (`NewTypes`). -/
def NewTypes : Types := ⟨[], []⟩

/-- Lookup `ts.typeNames[t]` (encoder direction). -/
def lookupTypeName (ts : Types) (t : Ty) : Option String :=
  (ts.typeNames.find? (fun p => p.1 == t)).map Prod.snd

/-- Lookup `ts.nameTypes[n]` (decoder direction). -/
def lookupNameType (ts : Types) (n : String) : Option Ty :=
  (ts.nameTypes.find? (fun p => p.1 == n)).map Prod.snd

/-- The `for t.Kind() == reflect.Pointer { t = t.Elem() }` loop of
`isTypeSupported`. -/
def stripPtr : Ty → Ty
  | .ptr e => stripPtr e
  | t => t

/-- `isMapKeyTypeSupported`: integer families (including uintptr) or string. -/
def isMapKeyTypeSupported : Ty → Bool
  | .int => true
  | .uint => true
  | .string => true
  | _ => false

/-- `isTypeSupported`: strip pointer indirections, then reject maps with
unsupported keys and the func/chan/unsafe-pointer kinds. -/
def isTypeSupported (t : Ty) : Bool :=
  match stripPtr t with
  | .map k _ => isMapKeyTypeSupported k
  | .func => false
  | .chan => false
  | .rawPointer => false
  | _ => true

/-- `Types.register`: the single-pair registration with its four failure
conditions, in source order. -/
def Types.register (ts : Types) (name : String) (t : Ty) : Except Err Types :=
  if name = "" then .error (.noName t)
  else if ¬ isTypeSupported t then .error (.typeNotSupported t)
  else if (lookupTypeName ts t).isSome then .error (.typeAlreadyRegistered t)
  else if (lookupNameType ts name).isSome then .error (.nameAlreadyRegistered name)
  else .ok ⟨ts.typeNames ++ [(t, name)], ts.nameTypes ++ [(name, t)]⟩

/-- `Types.Register`: attempts every pair in order, accumulating the errors of
the failing ones; the returned list models the argument of `errors.Join`,
which yields a nil error exactly when the list is empty. -/
def Types.Register (ts : Types) (args : List (String × Ty)) : Types × List Err :=
  args.foldl
    (fun acc arg =>
      match acc.1.register arg.1 arg.2 with
      | .error e => (acc.1, acc.2 ++ [e])
      | .ok ts1 => (ts1, acc.2))
    (ts, [])

/-! ## Encoder (`Marshal`) -/

/-- Encoder state: the identity-to-slot table `refs` (keyed by heap address)
and the object list under construction. -/
structure MState where
  refs : List (Nat × Nat)
  objects : List Obj

/-- Lookup `m.refs[ptr]`. -/
def lookupRef (refs : List (Nat × Nat)) (a : Nat) : Option Nat :=
  (refs.find? (fun p => p.1 == a)).map Prod.snd

/-- Read-only context of one encode call: the heap the pointers of the value
graph point into, the registry, and the strict flag. -/
structure MCtx where
  heap : List Val
  types : Types
  strict : Bool

/-- Outcome of a recursive step: out of fuel, a fatal abort, or a state plus
a result.  For `marshal` the result is `Option (Option Obj)`: `none` models
the Go return `(nil, false)` ("absent"), `some none` models `(nil, true)`
(an encoded null), `some (some o)` models `(o, true)`. -/
inductive Res (σ α : Type) where
  | fuelOut : Res σ α
  | fatal (e : Err) : Res σ α
  | res (s : σ) (x : α) : Res σ α

/-- Appends `o` as a new slot when `init` is set (the top-of-call slots of
the scalar/struct/sequence/map/interface branches). -/
def mpush (init : Bool) (s : MState) (o : Obj) : MState :=
  if init then ⟨s.refs, s.objects ++ [o]⟩ else s

/-- Converts a Go `any` result to an object-list entry (`nil` becomes null). -/
def objOrNull (x : Option Obj) : Obj := x.getD .null

/-- Sequencing of recursive steps: fuel exhaustion and fatal aborts (the
panic channel) propagate, a normal result continues. -/
def Res.then {σ α β : Type} : Res σ α → (σ → α → Res σ β) → Res σ β
  | .fuelOut, _ => .fuelOut
  | .fatal e, _ => .fatal e
  | .res s x, f => f s x

@[simp] theorem Res.then_fuelOut {σ α β : Type} (f : σ → α → Res σ β) :
    Res.then .fuelOut f = .fuelOut := rfl

@[simp] theorem Res.then_fatal {σ α β : Type} (e : Err) (f : σ → α → Res σ β) :
    Res.then (.fatal e) f = .fatal e := rfl

@[simp] theorem Res.then_res {σ α β : Type} (s : σ) (x : α) (f : σ → α → Res σ β) :
    Res.then (.res s x) f = f s x := rfl

/-- The field loop of the struct branch: a field is kept only when its value
marshals with `ok && x != nil`.  The parameter `m` is the recursive encoder
at the next fuel level. -/
def marshalFields (m : MState → Val → Res MState (Option (Option Obj))) :
    MState → List (String × Val) → Res MState (List (Val × Obj))
  | s, [] => .res s []
  | s, (name, v) :: rest =>
    (m s v).then fun s1 r =>
      match r with
      | some (some x) =>
        (marshalFields m s1 rest).then fun s2 entries =>
          .res s2 ((.str name, x) :: entries)
      | some none => marshalFields m s1 rest
      | none => marshalFields m s1 rest

/-- The element loop of the array/slice branch; `first` records whether the
head element is at index 0.  An absent head makes the whole sequence absent;
an absent later element is the unconditional "secondary slice element"
panic.  A nil element stays a null entry in the preallocated result. -/
def marshalSeq (m : MState → Val → Res MState (Option (Option Obj))) :
    MState → List Val → Bool → Res MState (Option (List Obj))
  | s, [], _ => .res s (some [])
  | s, v :: rest, first =>
    (m s v).then fun s1 r =>
      match r with
      | none => if first then .res s1 none else .fatal .secondarySliceElement
      | some x =>
        (marshalSeq m s1 rest false).then fun s2 xs? =>
          match xs? with
          | none => .res s2 none
          | some xs => .res s2 (some (objOrNull x :: xs))

/-- The entry loop of the map branch: an absent value drops the key
entirely; a nil value keeps the key with an explicit null. -/
def marshalMapEntries (m : MState → Val → Res MState (Option (Option Obj))) :
    MState → List (Val × Val) → Res MState (List (Val × Obj))
  | s, [] => .res s []
  | s, (k, v) :: rest =>
    (m s v).then fun s1 r =>
      match r with
      | none => marshalMapEntries m s1 rest
      | some x =>
        (marshalMapEntries m s1 rest).then fun s2 entries =>
          .res s2 ((k, objOrNull x) :: entries)

/-- The recursive encoder `marshaler.marshal`, fuel-indexed (the loops over
fields, elements and entries are the helpers above, applied to the encoder
at the next fuel level).  The branches are in source order: the nil
pre-switch, then the kind dispatch. -/
def marshal (c : MCtx) : Nat → MState → Val → Bool → Res MState (Option (Option Obj))
  | 0, _, _, _ => .fuelOut
  | _ + 1, s, .iface none, init => .res (mpush init s .null) (some none)
  | _ + 1, s, .map _ _ none, init => .res (mpush init s .null) (some none)
  | _ + 1, s, .ptr none, init => .res (mpush init s .null) (some none)
  | _ + 1, s, .slice none, init => .res (mpush init s .null) (some none)
  | _ + 1, s, .bool b, init => .res (mpush init s (.bool b)) (some (some (.bool b)))
  | _ + 1, s, .int i, init => .res (mpush init s (.int i)) (some (some (.int i)))
  | _ + 1, s, .uint n, init => .res (mpush init s (.uint n)) (some (some (.uint n)))
  | _ + 1, s, .float q, init => .res (mpush init s (.float q)) (some (some (.float q)))
  | _ + 1, s, .str t, init => .res (mpush init s (.str t)) (some (some (.str t)))
  | fuel + 1, s, .strukt fields, init =>
    (marshalFields (fun s v => marshal c fuel s v false) s fields).then fun s1 entries =>
      let o := Obj.map .string entries
      .res (mpush init s1 o) (some (some o))
  | fuel + 1, s, .array es, init =>
    (marshalSeq (fun s v => marshal c fuel s v false) s es true).then fun s1 xs? =>
      match xs? with
      | none => .res s1 none
      | some xs =>
        let o := Obj.list xs
        .res (mpush init s1 o) (some (some o))
  | fuel + 1, s, .slice (some es), init =>
    (marshalSeq (fun s v => marshal c fuel s v false) s es true).then fun s1 xs? =>
      match xs? with
      | none => .res s1 none
      | some xs =>
        let o := Obj.list xs
        .res (mpush init s1 o) (some (some o))
  | fuel + 1, s, .map kt et (some entries), init =>
    if ¬ isMapKeyTypeSupported kt then
      if c.strict then .fatal (.typeNotSupported (.map kt et)) else .res s none
    else
      (marshalMapEntries (fun s v => marshal c fuel s v false) s entries).then fun s1 ents =>
        let o := Obj.map kt ents
        .res (mpush init s1 o) (some (some o))
  | fuel + 1, s, .iface (some (t, w)), init =>
    match lookupTypeName c.types t with
    | none => .fatal (.typeNotRegistered t)
    | some name =>
      (marshal c fuel s w false).then fun s1 r =>
        match r with
        | none => .fatal .registeredTypeFailed
        | some x =>
          let o := Obj.map .string [(.str name, objOrNull x)]
          .res (mpush init s1 o) (some (some o))
  | fuel + 1, s, .ptr (some a), _ =>
    match lookupRef s.refs a with
    | some i => .res s (some (some (.int (Int.ofNat i))))
    | none =>
      let i := s.objects.length
      (marshal c fuel ⟨(a, i) :: s.refs, s.objects ++ [.null]⟩
          (c.heap.getD a (.strukt [])) false).then fun s2 r =>
        match r with
        | some x =>
          .res ⟨s2.refs, s2.objects.set i (objOrNull x)⟩ (some (some (.int (Int.ofNat i))))
        | none => .res ⟨s2.refs, s2.objects.take i⟩ none
  | _ + 1, s, .unsupported t, _ =>
    if c.strict then .fatal (.typeNotSupported t) else .res s none

/-- The entry point `Marshal`: rejects a bare struct root, runs the
traversal from an empty state with `init` set, and turns an absent root into
the "type not supported" error.  `none` means the model ran out of fuel. -/
def Marshal (heap : List Val) (x : Val) (types : Types)
    (ignoreUnsupportedTypes : Bool) (fuel : Nat) : Option (Except Err (List Obj)) :=
  match x with
  | .strukt _ => some (.error .structAsValue)
  | _ =>
    match marshal ⟨heap, types, !ignoreUnsupportedTypes⟩ fuel ⟨[], []⟩ x true with
    | .fuelOut => none
    | .fatal e => some (.error e)
    | .res _ none => some (.error .rootNotSupported)
    | .res s (some _) => some (.ok s.objects)

/-! ## Decoder (`Unmarshal`) -/

mutual

/-- The zero value of a type (`reflect.New(t).Elem()`). -/
def zeroVal : Ty → Val
  | .bool => .bool false
  | .int => .int 0
  | .uint => .uint 0
  | .float => .float 0
  | .string => .str ""
  | .strukt fields => .strukt (zeroFields fields)
  | .array n t => .array (List.replicate n (zeroVal t))
  | .slice _ => .slice none
  | .map k e => .map k e none
  | .iface => .iface none
  | .ptr _ => .ptr none
  | .func => .unsupported .func
  | .chan => .unsupported .chan
  | .rawPointer => .unsupported .rawPointer
termination_by structural t => t

/-- Zero values of a struct's fields. -/
def zeroFields : List (String × Ty) → List (String × Val)
  | [] => []
  | (n, t) :: rest => (n, zeroVal t) :: zeroFields rest
termination_by structural l => l

end

/-- Kind comparison (`srcType.Key().Kind() != keyType.Kind()`): constructor
equality, ignoring element/field structure. -/
def tyKindEq : Ty → Ty → Bool
  | .bool, .bool => true
  | .int, .int => true
  | .uint, .uint => true
  | .float, .float => true
  | .string, .string => true
  | .strukt _, .strukt _ => true
  | .array _ _, .array _ _ => true
  | .slice _, .slice _ => true
  | .map _ _, .map _ _ => true
  | .iface, .iface => true
  | .ptr _, .ptr _ => true
  | .func, .func => true
  | .chan, .chan => true
  | .rawPointer, .rawPointer => true
  | _, _ => false

/-- Lookup of a source-map entry by key (`src.MapIndex`). -/
def findEntry (entries : List (Val × Obj)) (k : Val) : Option Obj :=
  (entries.find? (fun p => p.1 == k)).map Prod.snd

/-- Current value of a named struct field (`dest.FieldByIndex`). -/
def getField (fields : List (String × Val)) (name : String) (d : Val) : Val :=
  ((fields.find? (fun p => p.1 == name)).map Prod.snd).getD d

/-- Write to a named struct field. -/
def setField : List (String × Val) → String → Val → List (String × Val)
  | [], name, v => [(name, v)]
  | (n, w) :: rest, name, v =>
    if n == name then (n, v) :: rest else (n, w) :: setField rest name v

/-- `dest.SetMapIndex`: replace-or-append insertion into an association
list modelling a Go map. -/
def mapSet : List (Val × Val) → Val → Val → List (Val × Val)
  | [], k, v => [(k, v)]
  | (l, w) :: rest, k, v =>
    if l == k then (l, v) :: rest else (l, w) :: mapSet rest k v

/-! ### `strconv.ParseUint(s, 0, 64)`

Modelled from the Go standard library (an external dependency of
`unmarshal.go`): base-0 prefix detection, Go literal underscore rules, and
the 64-bit range check.  `none` covers both the syntax and the range error,
either of which makes `Must` abort. -/

/-- Go's `lower(c) = c | ('x' - 'X')`. -/
def lowerChar (c : Char) : Char := Char.ofNat (c.toNat ||| 0x20)

/-- ASCII decimal digit test. -/
def isDigitChar (c : Char) : Bool :=
  decide ('0'.toNat ≤ c.toNat ∧ c.toNat ≤ '9'.toNat)

/-- The scanning loop of `underscoreOK`; `saw` is the character-class state
machine of the source (`'^'` start, `'0'` digit or base prefix, `'_'`
underscore, `'!'` other). -/
def underscoreOKLoop (hex : Bool) : List Char → Char → Bool
  | [], saw => saw != '_'
  | c :: rest, saw =>
    if isDigitChar c ||
        (hex && decide ('a'.toNat ≤ (lowerChar c).toNat ∧ (lowerChar c).toNat ≤ 'f'.toNat)) then
      underscoreOKLoop hex rest '0'
    else if c = '_' then
      if saw != '0' then false else underscoreOKLoop hex rest '_'
    else if saw = '_' then false
    else underscoreOKLoop hex rest '!'

/-- `strconv.underscoreOK`: underscores may appear only between digits or
between a base prefix and a digit. -/
def underscoreOK (s : List Char) : Bool :=
  let s1 := match s with
    | c :: rest => if c = '-' ∨ c = '+' then rest else s
    | [] => s
  match s1 with
  | '0' :: p :: rest =>
    if lowerChar p = 'b' ∨ lowerChar p = 'o' ∨ lowerChar p = 'x' then
      underscoreOKLoop (lowerChar p = 'x') rest '0'
    else underscoreOKLoop false s1 '^'
  | _ => underscoreOKLoop false s1 '^'

/-- The digit-conversion loop of `ParseUint` for base 0: skips underscores
(recording that one was seen), converts digits, rejects digits at or above
the base, other characters, and values exceeding the unsigned 64-bit range.
Returns the value and the underscore flag. -/
def convLoop (base : Nat) : List Char → Nat → Bool → Option (Nat × Bool)
  | [], n, u => some (n, u)
  | c :: rest, n, u =>
    if c = '_' then convLoop base rest n true
    else
      let d : Nat :=
        if isDigitChar c then c.toNat - '0'.toNat
        else if decide ('a'.toNat ≤ (lowerChar c).toNat ∧ (lowerChar c).toNat ≤ 'z'.toNat) then
          (lowerChar c).toNat - 'a'.toNat + 10
        else 99
      if base ≤ d then none
      else
        let n1 := n * base + d
        if 2 ^ 64 ≤ n1 then none
        else convLoop base rest n1 u

/-- `strconv.ParseUint(s, 0, 64)` as an `Option`. -/
def parseUint0 (s : String) : Option Nat :=
  match s.data with
  | [] => none
  | c0 :: cs0 =>
    if c0 = '+' ∨ c0 = '-' then none
    else
      let all := c0 :: cs0
      let pick : Nat × List Char :=
        match all with
        | '0' :: p :: rest =>
          if 3 ≤ all.length ∧ lowerChar p = 'b' then (2, rest)
          else if 3 ≤ all.length ∧ lowerChar p = 'o' then (8, rest)
          else if 3 ≤ all.length ∧ lowerChar p = 'x' then (16, rest)
          else (8, p :: rest)
        | '0' :: rest => (8, rest)
        | _ => (10, all)
      match convLoop pick.1 pick.2 0 false with
      | none => none
      | some (n, u) => if u ∧ ¬ underscoreOK all then none else some n

/-- Decoder state: the heap the reconstructed pointers point into, and the
memo array `u.objects` (per slot, the address of its materialized
instance). -/
structure UState where
  heap : List Val
  memo : List (Option Nat)

/-- Read-only context of one decode call: the registry and the source list. -/
structure UCtx where
  types : Types
  sources : List Obj

/-- Current element values of an array destination (defensive fallback to
zero values if the current value does not have the array's shape, which
cannot happen for a well-typed destination). -/
def arrayCur (n : Nat) (t : Ty) (cur : Val) : List Val :=
  match cur with
  | .array es => if es.length = n then es else List.replicate n (zeroVal t)
  | _ => List.replicate n (zeroVal t)

/-- Current field values of a struct destination (same defensive fallback). -/
def struktCur (ftys : List (String × Ty)) (cur : Val) : List (String × Val) :=
  match cur with
  | .strukt fs => fs
  | _ => zeroFields ftys

/-- The index-normalization switch of the pointer branch: unsigned integers
pass through, signed integers must be non-negative, floats must be
non-negative and integer-valued (`f != float64(uint64(f))` rejects
fractions), strings go through `ParseUint(s, 0, 64)`.  Everything else --
including a nil source, whose reflected value has Invalid kind and therefore
falls into the `default` branch (the interface-kind arm is unreachable
because every call site unwraps interface values first) -- panics. -/
def slotIndex (src : Obj) : Except Err Nat :=
  match src with
  | .uint n => .ok n
  | .int i => if i < 0 then .error .badSource else .ok i.toNat
  | .float q =>
    if q < 0 ∨ ¬ q.isInt then .error .badSource else .ok q.num.toNat
  | .str s =>
    match parseUint0 s with
    | some n => .ok n
    | none => .error .parseFailed
  | _ => .error .badSource

/-- The field loop of the struct branch: a field absent from the source map
keeps its current value; a present field recurses.  The parameter `u` is the
recursive decoder at the next fuel level. -/
def unmarshalFields (u : UState → Obj → Ty → Val → Res UState Val) :
    UState → List (String × Ty) → List (Val × Obj) → List (String × Val) →
    Res UState (List (String × Val))
  | st, [], _, cur => .res st cur
  | st, (name, fty) :: rest, entries, cur =>
    match findEntry entries (.str name) with
    | none => unmarshalFields u st rest entries cur
    | some x =>
      match u st x fty (getField cur name (zeroVal fty)) with
      | .fuelOut => .fuelOut
      | .fatal e => .fatal e
      | .res st1 v => unmarshalFields u st1 rest entries (setField cur name v)

/-- The element loop of the array/slice branch: a nil element is skipped
(the destination element keeps its current value); others recurse. -/
def unmarshalElems (u : UState → Obj → Ty → Val → Res UState Val) :
    UState → List Obj → Ty → List Val → Res UState (List Val)
  | st, [], _, _ => .res st []
  | st, x :: xs, t, cur =>
    match x with
    | .null =>
      match unmarshalElems u st xs t cur.tail with
      | .fuelOut => .fuelOut
      | .fatal e => .fatal e
      | .res st1 vs => .res st1 (cur.headD (zeroVal t) :: vs)
    | _ =>
      match u st x t (cur.headD (zeroVal t)) with
      | .fuelOut => .fuelOut
      | .fatal e => .fatal e
      | .res st1 v =>
        match unmarshalElems u st1 xs t cur.tail with
        | .fuelOut => .fuelOut
        | .fatal e => .fatal e
        | .res st2 vs => .res st2 (v :: vs)

/-- The entry loop of the map branch: a zero (nil) source value inserts the
element type's zero value; others decode into a fresh instance first. -/
def unmarshalMapEntries (u : UState → Obj → Ty → Val → Res UState Val) :
    UState → List (Val × Obj) → Ty → List (Val × Val) →
    Res UState (List (Val × Val))
  | st, [], _, acc => .res st acc
  | st, (k, x) :: rest, et, acc =>
    match x with
    | .null => unmarshalMapEntries u st rest et (mapSet acc k (zeroVal et))
    | _ =>
      match u st x et (zeroVal et) with
      | .fuelOut => .fuelOut
      | .fatal e => .fatal e
      | .res st1 v => unmarshalMapEntries u st1 rest et (mapSet acc k v)

/-- The recursive decoder `unmarshaler.unmarshal`, fuel-indexed, dispatching
on the destination type `t`; `cur` is the current value of the destination
location and the returned value is what the call leaves there.  A nil `any`
source (`Obj.null`) has Invalid kind in the source, so it fails every
structural check, including the `default` branch of the pointer case (the
interface-kind branch there is unreachable: every call site unwraps
interface values before recursing).  In the source, writes into a pointer
target happen in place during the recursion; since decoding never reads the
partially-written target (only its address, through the memo), returning the
final value and writing it once is equivalent. -/
def unmarshal (c : UCtx) : Nat → UState → Obj → Ty → Val → Res UState Val
  | 0, _, _, _, _ => .fuelOut
  | _ + 1, st, src, .bool, _ =>
    match src with
    | .bool b => .res st (.bool b)
    | _ => .fatal .badSource
  | _ + 1, st, src, .int, _ =>
    match src with
    | .int i => .res st (.int i)
    | _ => .fatal .badSource
  | _ + 1, st, src, .uint, _ =>
    match src with
    | .uint n => .res st (.uint n)
    | _ => .fatal .badSource
  | _ + 1, st, src, .float, _ =>
    match src with
    | .float q => .res st (.float q)
    | _ => .fatal .badSource
  | _ + 1, st, src, .string, _ =>
    match src with
    | .str s => .res st (.str s)
    | _ => .fatal .badSource
  | fuel + 1, st, src, .strukt ftys, cur =>
    match src with
    | .map .string entries =>
      match unmarshalFields (fun st x t cur => unmarshal c fuel st x t cur)
          st ftys entries (struktCur ftys cur) with
      | .fuelOut => .fuelOut
      | .fatal e => .fatal e
      | .res st1 fs => .res st1 (.strukt fs)
    | _ => .fatal .badSource
  | fuel + 1, st, src, .array n t, cur =>
    match src with
    | .list xs =>
      if xs.length = n then
        match unmarshalElems (fun st x t cur => unmarshal c fuel st x t cur)
            st xs t (arrayCur n t cur) with
        | .fuelOut => .fuelOut
        | .fatal e => .fatal e
        | .res st1 vs => .res st1 (.array vs)
      else .fatal .badSource
    | _ => .fatal .badSource
  | fuel + 1, st, src, .slice t, _ =>
    match src with
    | .list xs =>
      match unmarshalElems (fun st x t cur => unmarshal c fuel st x t cur)
          st xs t (List.replicate xs.length (zeroVal t)) with
      | .fuelOut => .fuelOut
      | .fatal e => .fatal e
      | .res st1 vs => .res st1 (.slice (some vs))
    | _ => .fatal .badSource
  | fuel + 1, st, src, .map kt et, _ =>
    match src with
    | .map skt entries =>
      if tyKindEq skt kt then
        match unmarshalMapEntries (fun st x t cur => unmarshal c fuel st x t cur)
            st entries et [] with
        | .fuelOut => .fuelOut
        | .fatal e => .fatal e
        | .res st1 es => .res st1 (.map kt et (some es))
      else .fatal .badSource
    | _ => .fatal .badSource
  | fuel + 1, st, src, .iface, _ =>
    match src with
    | .map .string entries =>
      match entries with
      | [(.str name, payload)] =>
        match lookupNameType c.types name with
        | none => .fatal (.nameNotRegistered name)
        | some t =>
          match unmarshal c fuel st payload t (zeroVal t) with
          | .fuelOut => .fuelOut
          | .fatal e => .fatal e
          | .res st1 v => .res st1 (.iface (some (t, v)))
      | _ => .fatal .badSource
    | _ => .fatal .badSource
  | fuel + 1, st, src, .ptr et, _ =>
    match slotIndex src with
    | .error e => .fatal e
    | .ok index =>
      if st.memo.length ≤ index then .fatal .badSource
      else
        match st.memo.getD index none with
        | some a => .res st (.ptr (some a))
        | none =>
          let a := st.heap.length
          match unmarshal c fuel ⟨st.heap ++ [zeroVal et], st.memo.set index (some a)⟩
              (c.sources.getD index .null) et (zeroVal et) with
          | .fuelOut => .fuelOut
          | .fatal e => .fatal e
          | .res st2 v => .res ⟨st2.heap.set a v, st2.memo⟩ (.ptr (some a))
  | _ + 1, _, _, .func, _ => .fatal (.targetNotSupported .func)
  | _ + 1, _, _, .chan, _ => .fatal (.targetNotSupported .chan)
  | _ + 1, _, _, .rawPointer, _ => .fatal (.targetNotSupported .rawPointer)

/-- The entry point `Unmarshal`: the destination must be a pointer, the
source list non-empty; the memo is created with one entry per slot and slot
0 pre-seeded to the destination (address 0 of the decode heap, holding
`dest0`); slot 0's source is then decoded into the destination. -/
def Unmarshal (sources : List Obj) (destTy : Ty) (dest0 : Val) (types : Types)
    (fuel : Nat) : Option (Except Err (UState × Val)) :=
  match destTy with
  | .ptr t =>
    match sources with
    | [] => some (.error .nothingToUnmarshal)
    | src0 :: _ =>
      match unmarshal ⟨types, sources⟩ fuel
          ⟨[dest0], some 0 :: List.replicate (sources.length - 1) none⟩ src0 t dest0 with
      | .fuelOut => none
      | .fatal e => some (.error e)
      | .res st v => some (.ok (⟨st.heap.set 0 v, st.memo⟩, v))
  | _ => some (.error .destinationNotPointer)

/-! ## Theorems on the claims -/

/-- C8: a bare struct (aggregate) value passed as the root of `Marshal` is
rejected up front with the "struct passed as value" error, before any
traversal, and no object list is produced; the check depends on nothing but
the root's kind. -/
theorem marshal_rejects_struct_root (heap : List Val) (fields : List (String × Val))
    (types : Types) (lenient : Bool) (fuel : Nat) :
    Marshal heap (.strukt fields) types lenient fuel = some (.error .structAsValue) := rfl

/-- C1 (evaluation at the failing input): the acyclic, fully supported value
`(*int)(nil)` -- a nil pointer root, no interface anywhere -- marshals
successfully to the one-slot list `[null]`, but unmarshaling that list into
a fresh `**int` destination aborts (the nil source has Invalid kind and
reaches the `default` branch of the pointer case, a raw `panic(src) // TODO`
site) instead of reconstructing the nil pointer, so the round trip fails. -/
theorem round_trip_fails_on_nil_pointer_root :
    Marshal [] (.ptr none) ⟨[], []⟩ true 10 = some (.ok [Obj.null]) ∧
    Unmarshal [Obj.null] (.ptr (.ptr .int)) (zeroVal (.ptr .int)) ⟨[], []⟩ 10 =
      some (.error .badSource) :=
  ⟨rfl, rfl⟩

/-- C7 (evaluation at the failing input and its neighbours): decoding into a
pointer destination normalizes unsigned, non-negative signed, non-negative
integer-valued float and numeric-string sources to one index space; negative
or fractional numbers, malformed strings and other source kinds abort; an
index at or beyond the list length aborts; but an explicit null source
\*also\* aborts (the `default` branch, a `panic(src) // TODO` site) instead
of leaving the destination unset as the specification states. -/
theorem pointer_index_decoding_eval :
    (slotIndex (.uint 1) = .ok 1) ∧
    (slotIndex (.int 1) = .ok 1) ∧
    (slotIndex (.int (-1)) = .error .badSource) ∧
    (slotIndex (.float 1) = .ok 1) ∧
    (slotIndex (.float (Rat.mk' 5 2)) = .error .badSource) ∧
    (slotIndex (.float (-1)) = .error .badSource) ∧
    (slotIndex (.str "1") = .ok 1) ∧
    (slotIndex (.str "0x1F") = .ok 31) ∧
    (slotIndex (.str "x") = .error .parseFailed) ∧
    (slotIndex (.bool true) = .error .badSource) ∧
    (slotIndex .null = .error .badSource) ∧
    (Unmarshal [Obj.uint 1, Obj.int 42] (.ptr (.ptr .int)) (.ptr none) ⟨[], []⟩ 10 =
      some (.ok (⟨[.ptr (some 1), .int 42], [some 0, some 1]⟩, .ptr (some 1)))) ∧
    (Unmarshal [Obj.str "1", Obj.int 42] (.ptr (.ptr .int)) (.ptr none) ⟨[], []⟩ 10 =
      some (.ok (⟨[.ptr (some 1), .int 42], [some 0, some 1]⟩, .ptr (some 1)))) ∧
    (Unmarshal [Obj.uint 5, Obj.int 42] (.ptr (.ptr .int)) (.ptr none) ⟨[], []⟩ 10 =
      some (.error .badSource)) ∧
    (Unmarshal [Obj.null, Obj.int 42] (.ptr (.ptr .int)) (.ptr none) ⟨[], []⟩ 10 =
      some (.error .badSource)) :=
  ⟨rfl, rfl, rfl, rfl, rfl, rfl, rfl, rfl, rfl, rfl, rfl, rfl, rfl, rfl, rfl⟩

/-- C4: encoding a non-nil interface-held value first resolves the concrete
type in the registry; an unregistered type is a fatal error for every value
of the strict flag (lenient mode does not soften it); a type registered
under name `N` makes the value encode to the single-entry map
`{N: encoded-payload}` (a nil payload encoding as an explicit null). -/
theorem polymorphic_encoding :
    (∀ (heap : List Val) (types : Types) (strict : Bool) (fuel : Nat) (s : MState)
        (t : Ty) (w : Val) (init : Bool),
      lookupTypeName types t = none →
      marshal ⟨heap, types, strict⟩ (fuel + 1) s (.iface (some (t, w))) init =
        .fatal (.typeNotRegistered t)) ∧
    (∀ (heap : List Val) (types : Types) (strict : Bool) (fuel : Nat) (s s1 : MState)
        (t : Ty) (w : Val) (init : Bool) (name : String) (x : Option Obj),
      lookupTypeName types t = some name →
      marshal ⟨heap, types, strict⟩ fuel s w false = .res s1 (some x) →
      marshal ⟨heap, types, strict⟩ (fuel + 1) s (.iface (some (t, w))) init =
        .res (mpush init s1 (Obj.map .string [(.str name, objOrNull x)]))
          (some (some (Obj.map .string [(.str name, objOrNull x)])))) := by
  constructor
  · intro heap types strict fuel s t w init hlook
    simp [marshal, hlook]
  · intro heap types strict fuel s s1 t w init name x hlook hw
    simp [marshal, hlook, hw]

/-- Closed instantiation of `polymorphic_encoding`: with only `int`
registered (as "I"), an interface holding a struct value is a fatal error
even in lenient mode, and an interface holding `int 7` encodes to
`{"I": 7}`. -/
theorem polymorphic_encoding_witness :
    marshal ⟨[], ⟨[(.int, "I")], [("I", .int)]⟩, false⟩ 3 ⟨[], []⟩
      (.iface (some (.strukt [], .strukt []))) true = .fatal (.typeNotRegistered (.strukt [])) ∧
    marshal ⟨[], ⟨[(.int, "I")], [("I", .int)]⟩, false⟩ 3 ⟨[], []⟩
      (.iface (some (.int, .int 7))) true =
      .res ⟨[], [Obj.map .string [(.str "I", .int 7)]]⟩
        (some (some (Obj.map .string [(.str "I", .int 7)]))) := by
  refine ⟨polymorphic_encoding.1 [] _ false 2 _ _ _ true rfl, ?_⟩
  have h := polymorphic_encoding.2 [] ⟨[(.int, "I")], [("I", .int)]⟩ false 2 ⟨[], []⟩ ⟨[], []⟩
    .int (.int 7) true "I" (some (.int 7)) rfl rfl
  simpa [mpush, objOrNull] using h

/-- Spec-side predicate for C9: every pair of the batch registers
successfully when attempted in order on the evolving registry. -/
def registerAllOk (ts : Types) : List (String × Ty) → Bool
  | [] => true
  | (n, t) :: rest =>
    match ts.register n t with
    | .error _ => false
    | .ok ts1 => registerAllOk ts1 rest

/-- The error accumulator of `Types.Register` only ever grows at the end:
running the fold from `(ts, errs0)` yields the same registry and `errs0`
prefixed to the errors of the run from `(ts, [])`. -/
theorem Register_fold_append (args : List (String × Ty)) :
    ∀ (ts : Types) (errs0 : List Err),
      args.foldl
        (fun acc arg =>
          match acc.1.register arg.1 arg.2 with
          | .error e => (acc.1, acc.2 ++ [e])
          | .ok ts1 => (ts1, acc.2))
        (ts, errs0) =
      ((Types.Register ts args).1, errs0 ++ (Types.Register ts args).2) := by
  induction args with
  | nil => intro ts errs0; simp [Types.Register]
  | cons a rest ih =>
    intro ts errs0
    simp only [Types.Register, List.foldl_cons]
    cases h : ts.register a.1 a.2 with
    | error e => rw [ih, ih]; simp
    | ok ts1 => rw [ih, ih]; simp

/-- One step of `Types.Register`: a failing head pair records its error and
processing continues on the unchanged registry; a successful head pair
updates the registry and continues. -/
theorem Register_cons (ts : Types) (a : String × Ty) (rest : List (String × Ty)) :
    Types.Register ts (a :: rest) =
      match ts.register a.1 a.2 with
      | .error e => ((Types.Register ts rest).1, e :: (Types.Register ts rest).2)
      | .ok ts1 => Types.Register ts1 rest := by
  show (a :: rest).foldl _ (ts, []) = _
  rw [List.foldl_cons]
  cases h : ts.register a.1 a.2 with
  | error e => simp only [h, List.nil_append]; rw [Register_fold_append]; simp
  | ok ts1 => simp only [h]; rfl

/-- C9: batch registration attempts every (name, type) pair without
short-circuiting (a failing pair records its error and the rest of the batch
is still processed on the unchanged registry); the joined error is nil
exactly when every pair registered successfully; and an individual
registration fails exactly when the name is empty, the type is unsupported,
the type is already registered, or the name is already bound. -/
theorem register_batch_error_joining :
    (∀ (ts : Types) (a : String × Ty) (rest : List (String × Ty)),
      Types.Register ts (a :: rest) =
        match ts.register a.1 a.2 with
        | .error e => ((Types.Register ts rest).1, e :: (Types.Register ts rest).2)
        | .ok ts1 => Types.Register ts1 rest) ∧
    (∀ (ts : Types) (args : List (String × Ty)),
      (Types.Register ts args).2 = [] ↔ registerAllOk ts args = true) ∧
    (∀ (ts : Types) (name : String) (t : Ty),
      (ts.register name t).isOk = false ↔
        (name = "" ∨ isTypeSupported t = false ∨ (lookupTypeName ts t).isSome = true ∨
          (lookupNameType ts name).isSome = true)) := by
  refine ⟨Register_cons, ?_, ?_⟩
  · intro ts args
    induction args generalizing ts with
    | nil => simp [Types.Register, registerAllOk]
    | cons a rest ih =>
      rw [Register_cons]
      cases h : ts.register a.1 a.2 with
      | error e => simp [registerAllOk, h]
      | ok ts1 => simpa [registerAllOk, h] using ih ts1
  · intro ts name t
    unfold Types.register
    by_cases h1 : name = "" <;> by_cases h2 : isTypeSupported t <;>
      cases h3 : (lookupTypeName ts t).isSome <;>
      cases h4 : (lookupNameType ts name).isSome <;>
      simp [h1, h2, h3, h4, Except.isOk, Except.toBool]

/-- Keys of the encoded map entries all come from the source map: the entry
loop never invents a key. -/
theorem marshalMapEntries_keys (M : MState → Val → Res MState (Option (Option Obj))) :
    ∀ (entries : List (Val × Val)) (s s' : MState) (out : List (Val × Obj)),
      marshalMapEntries M s entries = .res s' out →
      ∀ k o, (k, o) ∈ out → ∃ v, (k, v) ∈ entries := by
  intro entries
  induction entries with
  | nil =>
    intro s s' out h k o hm
    simp only [marshalMapEntries] at h
    cases h
    simp at hm
  | cons a rest ih =>
    obtain ⟨k', v'⟩ := a
    intro s s' out h k o hm
    simp only [marshalMapEntries] at h
    cases hM : M s v' with
    | fuelOut => rw [hM] at h; simp [Res.then] at h
    | fatal e => rw [hM] at h; simp [Res.then] at h
    | res s1 x =>
      rw [hM] at h
      cases x with
      | none =>
        simp only [Res.then_res] at h
        obtain ⟨v2, hv2⟩ := ih s1 s' out h k o hm
        exact ⟨v2, List.mem_cons_of_mem _ hv2⟩
      | some x =>
        simp only [Res.then_res] at h
        cases hR : marshalMapEntries M s1 rest with
        | fuelOut => rw [hR] at h; simp [Res.then] at h
        | fatal e => rw [hR] at h; simp [Res.then] at h
        | res s2 entries2 =>
          rw [hR] at h
          simp only [Res.then_res] at h
          cases h
          rcases List.mem_cons.mp hm with h1 | h1
          · cases h1
            exact ⟨v', List.mem_cons_self _ _⟩
          · obtain ⟨v2, hv2⟩ := ih s1 _ _ hR k o h1
            exact ⟨v2, List.mem_cons_of_mem _ hv2⟩

/-- The entry loop composes over list append: running it on `pre ++ suf` is
running it on `pre` and continuing on `suf` from the reached state, with the
outputs concatenated. -/
theorem marshalMapEntries_append (M : MState → Val → Res MState (Option (Option Obj)))
    (pre suf : List (Val × Val)) :
    ∀ s : MState,
      marshalMapEntries M s (pre ++ suf) =
        (marshalMapEntries M s pre).then fun s1 preOut =>
          (marshalMapEntries M s1 suf).then fun s2 sufOut =>
            .res s2 (preOut ++ sufOut) := by
  induction pre with
  | nil =>
    intro s
    simp only [List.nil_append, marshalMapEntries, Res.then_res]
    cases marshalMapEntries M s suf <;> simp
  | cons a pre' ih =>
    obtain ⟨k', v'⟩ := a
    intro s
    simp only [List.cons_append, marshalMapEntries, List.append_eq]
    cases hM : M s v' with
    | fuelOut => simp
    | fatal e => simp
    | res s1 x =>
      cases x with
      | none => simpa only [Res.then_res] using ih s1
      | some x =>
        simp only [Res.then_res]
        rw [ih s1]
        cases marshalMapEntries M s1 pre' with
        | fuelOut => simp
        | fatal e => simp
        | res s2 preOut =>
          simp only [Res.then_res]
          cases marshalMapEntries M s2 suf with
          | fuelOut => simp
          | fatal e => simp
          | res s3 sufOut => simp

/-- C5: associative-value asymmetry.  Fix a run of the encoder's map-entry
loop over a map `pre ++ (k, v) :: post` whose prefix run reached state `s1`.
If the value `v` encodes as "absent" then `k` is dropped from the output
entirely (given that `k` occurs nowhere else in the map, as Go map keys
cannot); if `v` encodes successfully to nil then `k` is kept with an
explicit null; if `v` encodes to an object then `k` is kept with it. -/
theorem map_value_asymmetry (c : MCtx) (fuel : Nat) (s s1 sF : MState)
    (pre post : List (Val × Val)) (k v : Val) (preOut out : List (Val × Obj)) :
    marshalMapEntries (fun s v => marshal c fuel s v false) s pre = .res s1 preOut →
    marshalMapEntries (fun s v => marshal c fuel s v false) s (pre ++ (k, v) :: post) =
      .res sF out →
    ((∀ s2, marshal c fuel s1 v false = .res s2 none →
        (∀ w, (k, w) ∉ pre) → (∀ w, (k, w) ∉ post) → ∀ o, (k, o) ∉ out) ∧
     (∀ s2, marshal c fuel s1 v false = .res s2 (some none) → (k, Obj.null) ∈ out) ∧
     (∀ s2 x, marshal c fuel s1 v false = .res s2 (some (some x)) → (k, x) ∈ out)) := by
  intro hpre hall
  rw [marshalMapEntries_append _ pre ((k, v) :: post) s, hpre] at hall
  simp only [Res.then_res, marshalMapEntries] at hall
  refine ⟨?_, ?_, ?_⟩
  · intro s2 hv hkpre hkpost o hko
    rw [hv] at hall
    simp only [Res.then_res] at hall
    cases hP : marshalMapEntries (fun s v => marshal c fuel s v false) s2 post with
    | fuelOut => rw [hP] at hall; simp [Res.then] at hall
    | fatal e => rw [hP] at hall; simp [Res.then] at hall
    | res s3 postOut =>
      rw [hP] at hall
      simp only [Res.then_res] at hall
      cases hall
      rcases List.mem_append.mp hko with h1 | h1
      · obtain ⟨w, hw⟩ := marshalMapEntries_keys _ pre s s1 preOut hpre k o h1
        exact hkpre w hw
      · obtain ⟨w, hw⟩ := marshalMapEntries_keys _ post s2 _ _ hP k o h1
        exact hkpost w hw
  · intro s2 hv
    rw [hv] at hall
    simp only [Res.then_res] at hall
    cases hP : marshalMapEntries (fun s v => marshal c fuel s v false) s2 post with
    | fuelOut => rw [hP] at hall; simp [Res.then] at hall
    | fatal e => rw [hP] at hall; simp [Res.then] at hall
    | res s3 postOut =>
      rw [hP] at hall
      simp only [Res.then_res] at hall
      cases hall
      simp [objOrNull]
  · intro s2 x hv
    rw [hv] at hall
    simp only [Res.then_res] at hall
    cases hP : marshalMapEntries (fun s v => marshal c fuel s v false) s2 post with
    | fuelOut => rw [hP] at hall; simp [Res.then] at hall
    | fatal e => rw [hP] at hall; simp [Res.then] at hall
    | res s3 postOut =>
      rw [hP] at hall
      simp only [Res.then_res] at hall
      cases hall
      simp [objOrNull]

/-- Closed instantiation of `map_value_asymmetry` in lenient mode, at the
one-entry maps `{k: func value}` (key dropped), `{k: nil pointer}` (key kept
with null) and `{k: 3}` (key kept with the value). -/
theorem map_value_asymmetry_witness :
    (∀ o, (Val.str "k", o) ∉ ([] : List (Val × Obj))) ∧
    (Val.str "k", Obj.null) ∈ [(Val.str "k", Obj.null)] ∧
    (Val.str "k", Obj.int 3) ∈ [(Val.str "k", Obj.int 3)] := by
  refine ⟨?_, ?_, ?_⟩
  · exact (map_value_asymmetry ⟨[], ⟨[], []⟩, false⟩ 1 ⟨[], []⟩ ⟨[], []⟩ ⟨[], []⟩
      [] [] (.str "k") (.unsupported .func) [] [] rfl rfl).1 ⟨[], []⟩ rfl
      (by simp) (by simp)
  · exact (map_value_asymmetry ⟨[], ⟨[], []⟩, false⟩ 1 ⟨[], []⟩ ⟨[], []⟩ ⟨[], []⟩
      [] [] (.str "k") (.ptr none) [] [(.str "k", .null)] rfl rfl).2.1 ⟨[], []⟩ rfl
  · exact (map_value_asymmetry ⟨[], ⟨[], []⟩, false⟩ 1 ⟨[], []⟩ ⟨[], []⟩ ⟨[], []⟩
      [] [] (.str "k") (.int 3) [] [(.str "k", .int 3)] rfl rfl).2.2 ⟨[], []⟩ (.int 3) rfl

/-- One-step unfolding of the element loop on a cons cell. -/
theorem marshalSeq_cons (M : MState → Val → Res MState (Option (Option Obj)))
    (s : MState) (a : Val) (rest : List Val) (first : Bool) :
    marshalSeq M s (a :: rest) first =
      (M s a).then fun s1 r =>
        match r with
        | none => if first then .res s1 none else .fatal .secondarySliceElement
        | some x =>
          (marshalSeq M s1 rest false).then fun s2 xs? =>
            match xs? with
            | none => .res s2 none
            | some xs => .res s2 (some (objOrNull x :: xs)) := rfl

/-- The element loop composes over list append for a non-empty prefix: the
suffix continues from the prefix's state with `first` cleared; a prefix that
reported "absent" (its head was unsupported at index 0) makes the whole run
absent without touching the suffix. -/
theorem marshalSeq_append (M : MState → Val → Res MState (Option (Option Obj)))
    (rest : List Val) :
    ∀ (pre : List Val) (a : Val) (s : MState) (first : Bool),
      marshalSeq M s ((a :: pre) ++ rest) first =
        (marshalSeq M s (a :: pre) first).then fun s1 xs? =>
          match xs? with
          | none => .res s1 none
          | some xs =>
            (marshalSeq M s1 rest false).then fun s2 ys? =>
              match ys? with
              | none => .res s2 none
              | some ys => .res s2 (some (xs ++ ys)) := by
  intro pre
  induction pre with
  | nil =>
    intro a s first
    rw [show ([a] ++ rest) = a :: rest from rfl,
      marshalSeq_cons M s a rest first, marshalSeq_cons M s a [] first]
    cases hM : M s a with
    | fuelOut => simp [Res.then]
    | fatal e => simp [Res.then]
    | res s1 r =>
      simp only [Res.then_res]
      cases r with
      | none => cases first <;> simp [Res.then]
      | some x =>
        cases hR : marshalSeq M s1 rest false with
        | fuelOut => simp [hR, Res.then, marshalSeq]
        | fatal e => simp [hR, Res.then, marshalSeq]
        | res s2 ys? => cases ys? <;> simp [hR, Res.then, marshalSeq]
  | cons b pre2 ih =>
    intro a s first
    rw [show ((a :: b :: pre2) ++ rest) = a :: ((b :: pre2) ++ rest) from rfl,
      marshalSeq_cons M s a ((b :: pre2) ++ rest) first,
      marshalSeq_cons M s a (b :: pre2) first]
    cases hM : M s a with
    | fuelOut => simp [Res.then]
    | fatal e => simp [Res.then]
    | res s1 r =>
      simp only [Res.then_res]
      cases r with
      | none => cases first <;> simp [Res.then]
      | some x =>
        rw [ih b s1 false]
        cases hP : marshalSeq M s1 (b :: pre2) false with
        | fuelOut => simp [Res.then]
        | fatal e => simp [Res.then]
        | res s2 xs? =>
          cases xs? with
          | none => simp [Res.then]
          | some xs =>
            simp only [Res.then_res]
            cases hS : marshalSeq M s2 rest false with
            | fuelOut => simp [Res.then]
            | fatal e => simp [Res.then]
            | res s3 ys? => cases ys? <;> simp [Res.then]

/-- C6: the sequence element rule.  An unsupported element at index 0 makes
the whole sequence absent (and the array/slice branches of the encoder
propagate that absence to the caller); an unsupported element at any index
greater than zero -- i.e. after a non-empty prefix that encoded successfully
-- aborts the entire encode with the "secondary slice element" panic,
regardless of the strict flag. -/
theorem sequence_element_rule (c : MCtx) (fuel : Nat) :
    (∀ (s s1 : MState) (v : Val) (rest : List Val),
      marshal c fuel s v false = .res s1 none →
      marshalSeq (fun s v => marshal c fuel s v false) s (v :: rest) true = .res s1 none) ∧
    (∀ (s s1 s2 : MState) (a v : Val) (pre post : List Val) (xs : List Obj),
      marshalSeq (fun s v => marshal c fuel s v false) s (a :: pre) true = .res s1 (some xs) →
      marshal c fuel s1 v false = .res s2 none →
      marshalSeq (fun s v => marshal c fuel s v false) s ((a :: pre) ++ v :: post) true =
        .fatal .secondarySliceElement) ∧
    (∀ (s s1 : MState) (es : List Val) (init : Bool),
      marshalSeq (fun s v => marshal c fuel s v false) s es true = .res s1 none →
      marshal c (fuel + 1) s (.array es) init = .res s1 none) ∧
    (∀ (s s1 : MState) (es : List Val) (init : Bool),
      marshalSeq (fun s v => marshal c fuel s v false) s es true = .res s1 none →
      marshal c (fuel + 1) s (.slice (some es)) init = .res s1 none) := by
  refine ⟨?_, ?_, ?_, ?_⟩
  · intro s s1 v rest hv
    simp only [marshalSeq, hv, Res.then_res, if_true]
  · intro s s1 s2 a v pre post xs hrun hv
    rw [marshalSeq_append _ (v :: post) pre a s true, hrun]
    simp [Res.then, marshalSeq, hv]
  · intro s s1 es init hseq
    simp [marshal, hseq]
  · intro s s1 es init hseq
    simp [marshal, hseq]

/-- Closed instantiation of `sequence_element_rule` in lenient mode: a func
value at index 0 makes `[func]` absent and an array of it absent; a func
value at index 1 after the successfully encoded prefix `[1]` is the fatal
"secondary slice element" panic. -/
theorem sequence_element_rule_witness :
    marshalSeq (fun s v => marshal ⟨[], ⟨[], []⟩, false⟩ 1 s v false) ⟨[], []⟩
      [.unsupported .func] true = .res ⟨[], []⟩ none ∧
    marshalSeq (fun s v => marshal ⟨[], ⟨[], []⟩, false⟩ 1 s v false) ⟨[], []⟩
      [.int 1, .unsupported .func] true = .fatal .secondarySliceElement ∧
    marshal ⟨[], ⟨[], []⟩, false⟩ 2 ⟨[], []⟩ (.array [.unsupported .func]) false =
      .res ⟨[], []⟩ none := by
  refine ⟨?_, ?_, ?_⟩
  · exact (sequence_element_rule ⟨[], ⟨[], []⟩, false⟩ 1).1 ⟨[], []⟩ ⟨[], []⟩
      (.unsupported .func) [] rfl
  · exact (sequence_element_rule ⟨[], ⟨[], []⟩, false⟩ 1).2.1 ⟨[], []⟩ ⟨[], []⟩ ⟨[], []⟩
      (.int 1) (.unsupported .func) [] [] [.int 1] rfl rfl
  · exact (sequence_element_rule ⟨[], ⟨[], []⟩, false⟩ 1).2.2.1 ⟨[], []⟩ ⟨[], []⟩
      [.unsupported .func] false rfl

/-! ## Encoder state evolution (claims C2 and C10) -/

/-- One-step unfolding of the field loop on a cons cell. -/
theorem marshalFields_cons (M : MState → Val → Res MState (Option (Option Obj)))
    (s : MState) (name : String) (v : Val) (rest : List (String × Val)) :
    marshalFields M s ((name, v) :: rest) =
      (M s v).then fun s1 r =>
        match r with
        | some (some x) =>
          (marshalFields M s1 rest).then fun s2 entries =>
            .res s2 ((.str name, x) :: entries)
        | some none => marshalFields M s1 rest
        | none => marshalFields M s1 rest := rfl

/-- One-step unfolding of the map-entry loop on a cons cell. -/
theorem marshalMapEntries_cons (M : MState → Val → Res MState (Option (Option Obj)))
    (s : MState) (k v : Val) (rest : List (Val × Val)) :
    marshalMapEntries M s ((k, v) :: rest) =
      (M s v).then fun s1 r =>
        match r with
        | none => marshalMapEntries M s1 rest
        | some x =>
          (marshalMapEntries M s1 rest).then fun s2 entries =>
            .res s2 ((k, objOrNull x) :: entries) := rfl

/-- Evolution of the encoder state across one recursive step: the object
list never shrinks, every existing identity-to-slot binding survives with
its index, and distinctness of the bound addresses is preserved. -/
def MEvolve (s s' : MState) : Prop :=
  s.objects.length ≤ s'.objects.length ∧
  (∀ a i, lookupRef s.refs a = some i → lookupRef s'.refs a = some i) ∧
  ((s.refs.map Prod.fst).Nodup → (s'.refs.map Prod.fst).Nodup)

theorem MEvolve.refl (s : MState) : MEvolve s s :=
  ⟨le_refl _, fun _ _ h => h, id⟩

theorem MEvolve.trans {s1 s2 s3 : MState} (h1 : MEvolve s1 s2) (h2 : MEvolve s2 s3) :
    MEvolve s1 s3 :=
  ⟨h1.1.trans h2.1, fun a i h => h2.2.1 a i (h1.2.1 a i h), fun h => h2.2.2 (h1.2.2 h)⟩

theorem mevolve_mpush (init : Bool) (s : MState) (o : Obj) : MEvolve s (mpush init s o) := by
  cases init <;> simp [mpush, MEvolve]

/-- A fresh binding at the head wins the lookup. -/
theorem lookupRef_cons_self (refs : List (Nat × Nat)) (a i : Nat) :
    lookupRef ((a, i) :: refs) a = some i := by
  simp [lookupRef]

/-- A binding for a different address does not disturb a lookup. -/
theorem lookupRef_cons_ne (refs : List (Nat × Nat)) (a b i : Nat) (h : b ≠ a) :
    lookupRef ((a, i) :: refs) b = lookupRef refs b := by
  simp [lookupRef, List.find?_cons, Ne.symm h]

/-- A failed lookup means the address is bound nowhere in the table. -/
theorem lookupRef_eq_none (refs : List (Nat × Nat)) (a : Nat)
    (h : lookupRef refs a = none) : a ∉ refs.map Prod.fst := by
  intro hmem
  obtain ⟨p, hp, hpa⟩ := List.mem_map.mp hmem
  simp only [lookupRef, Option.map_eq_none'] at h
  have := List.find?_eq_none.mp h p hp
  simp [hpa] at this

/-- The field loop preserves any reflexive-transitive evolution property of
its step function. -/
theorem marshalFields_evolve {E : MState → MState → Prop}
    (hrefl : ∀ s, E s s) (htrans : ∀ {s1 s2 s3}, E s1 s2 → E s2 s3 → E s1 s3)
    (M : MState → Val → Res MState (Option (Option Obj)))
    (hM : ∀ s v s' r, M s v = .res s' r → E s s') :
    ∀ (fields : List (String × Val)) (s s' : MState) (out : List (Val × Obj)),
      marshalFields M s fields = .res s' out → E s s' := by
  intro fields
  induction fields with
  | nil =>
    intro s s' out h
    simp only [marshalFields] at h
    cases h
    exact hrefl s
  | cons a rest ih =>
    obtain ⟨name, v⟩ := a
    intro s s' out h
    rw [marshalFields_cons] at h
    cases hM1 : M s v with
    | fuelOut => rw [hM1] at h; simp [Res.then] at h
    | fatal e => rw [hM1] at h; simp [Res.then] at h
    | res s1 r =>
      rw [hM1] at h
      have e1 := hM s v s1 r hM1
      cases r with
      | none =>
        simp only [Res.then_res] at h
        exact htrans e1 (ih s1 s' out h)
      | some x =>
        cases x with
        | none =>
          simp only [Res.then_res] at h
          exact htrans e1 (ih s1 s' out h)
        | some x =>
          simp only [Res.then_res] at h
          cases hR : marshalFields M s1 rest with
          | fuelOut => rw [hR] at h; simp [Res.then] at h
          | fatal e => rw [hR] at h; simp [Res.then] at h
          | res s2 entries =>
            rw [hR] at h
            simp only [Res.then_res] at h
            cases h
            exact htrans e1 (ih s1 _ _ hR)

/-- The element loop preserves any reflexive-transitive evolution property. -/
theorem marshalSeq_evolve {E : MState → MState → Prop}
    (hrefl : ∀ s, E s s) (htrans : ∀ {s1 s2 s3}, E s1 s2 → E s2 s3 → E s1 s3)
    (M : MState → Val → Res MState (Option (Option Obj)))
    (hM : ∀ s v s' r, M s v = .res s' r → E s s') :
    ∀ (es : List Val) (s s' : MState) (first : Bool) (out : Option (List Obj)),
      marshalSeq M s es first = .res s' out → E s s' := by
  intro es
  induction es with
  | nil =>
    intro s s' first out h
    simp only [marshalSeq] at h
    cases h
    exact hrefl s
  | cons v rest ih =>
    intro s s' first out h
    rw [marshalSeq_cons] at h
    cases hM1 : M s v with
    | fuelOut => rw [hM1] at h; simp [Res.then] at h
    | fatal e => rw [hM1] at h; simp [Res.then] at h
    | res s1 r =>
      rw [hM1] at h
      have e1 := hM s v s1 r hM1
      cases r with
      | none =>
        simp only [Res.then_res] at h
        cases first with
        | true => simp only [if_true] at h; cases h; exact e1
        | false => simp at h
      | some x =>
        simp only [Res.then_res] at h
        cases hR : marshalSeq M s1 rest false with
        | fuelOut => rw [hR] at h; simp [Res.then] at h
        | fatal e => rw [hR] at h; simp [Res.then] at h
        | res s2 ys? =>
          rw [hR] at h
          simp only [Res.then_res] at h
          cases ys? with
          | none => cases h; exact htrans e1 (ih s1 _ false _ hR)
          | some ys => cases h; exact htrans e1 (ih s1 _ false _ hR)

/-- The map-entry loop preserves any reflexive-transitive evolution
property. -/
theorem marshalMapEntries_evolve {E : MState → MState → Prop}
    (hrefl : ∀ s, E s s) (htrans : ∀ {s1 s2 s3}, E s1 s2 → E s2 s3 → E s1 s3)
    (M : MState → Val → Res MState (Option (Option Obj)))
    (hM : ∀ s v s' r, M s v = .res s' r → E s s') :
    ∀ (entries : List (Val × Val)) (s s' : MState) (out : List (Val × Obj)),
      marshalMapEntries M s entries = .res s' out → E s s' := by
  intro entries
  induction entries with
  | nil =>
    intro s s' out h
    simp only [marshalMapEntries] at h
    cases h
    exact hrefl s
  | cons a rest ih =>
    obtain ⟨k, v⟩ := a
    intro s s' out h
    rw [marshalMapEntries_cons] at h
    cases hM1 : M s v with
    | fuelOut => rw [hM1] at h; simp [Res.then] at h
    | fatal e => rw [hM1] at h; simp [Res.then] at h
    | res s1 r =>
      rw [hM1] at h
      have e1 := hM s v s1 r hM1
      cases r with
      | none =>
        simp only [Res.then_res] at h
        exact htrans e1 (ih s1 s' out h)
      | some x =>
        simp only [Res.then_res] at h
        cases hR : marshalMapEntries M s1 rest with
        | fuelOut => rw [hR] at h; simp [Res.then] at h
        | fatal e => rw [hR] at h; simp [Res.then] at h
        | res s2 entries2 =>
          rw [hR] at h
          simp only [Res.then_res] at h
          cases h
          exact htrans e1 (ih s1 _ _ hR)

/-- Every non-aborting step of the encoder evolves the state monotonically:
the object list never ends shorter than it started, existing
identity-to-slot bindings survive with their index, and distinctness of the
bound addresses is preserved. -/
theorem marshal_evolve (c : MCtx) :
    ∀ (fuel : Nat) (s : MState) (v : Val) (init : Bool) (s' : MState)
      (r : Option (Option Obj)),
      marshal c fuel s v init = .res s' r → MEvolve s s' := by
  intro fuel
  induction fuel with
  | zero => intro s v init s' r h; exact nomatch h
  | succ fuel ih =>
    have hM : ∀ (s : MState) (v : Val) (s' : MState) (r : Option (Option Obj)),
        (fun s v => marshal c fuel s v false) s v = .res s' r → MEvolve s s' :=
      fun s v s' r h => ih s v false s' r h
    intro s v init s' r h
    cases v with
    | bool b => simp only [marshal] at h; cases h; exact mevolve_mpush init s _
    | int i => simp only [marshal] at h; cases h; exact mevolve_mpush init s _
    | uint n => simp only [marshal] at h; cases h; exact mevolve_mpush init s _
    | float q => simp only [marshal] at h; cases h; exact mevolve_mpush init s _
    | str t => simp only [marshal] at h; cases h; exact mevolve_mpush init s _
    | strukt fields =>
      simp only [marshal] at h
      cases hR : marshalFields (fun s v => marshal c fuel s v false) s fields with
      | fuelOut => simp [hR, Res.then] at h
      | fatal e => simp [hR, Res.then] at h
      | res s1 entries =>
        simp only [hR, Res.then_res] at h
        cases h
        exact (marshalFields_evolve MEvolve.refl (fun h1 h2 => h1.trans h2) _ hM
          fields s s1 entries hR).trans (mevolve_mpush init s1 _)
    | array es =>
      simp only [marshal] at h
      cases hR : marshalSeq (fun s v => marshal c fuel s v false) s es true with
      | fuelOut => simp [hR, Res.then] at h
      | fatal e => simp [hR, Res.then] at h
      | res s1 xs? =>
        have e1 := marshalSeq_evolve MEvolve.refl (fun h1 h2 => h1.trans h2) _ hM
          es s s1 true xs? hR
        cases xs? with
        | none => simp only [hR, Res.then_res] at h; cases h; exact e1
        | some xs =>
          simp only [hR, Res.then_res] at h
          cases h
          exact e1.trans (mevolve_mpush init s1 _)
    | slice o =>
      cases o with
      | none => simp only [marshal] at h; cases h; exact mevolve_mpush init s _
      | some es =>
        simp only [marshal] at h
        cases hR : marshalSeq (fun s v => marshal c fuel s v false) s es true with
        | fuelOut => simp [hR, Res.then] at h
        | fatal e => simp [hR, Res.then] at h
        | res s1 xs? =>
          have e1 := marshalSeq_evolve MEvolve.refl (fun h1 h2 => h1.trans h2) _ hM
            es s s1 true xs? hR
          cases xs? with
          | none => simp only [hR, Res.then_res] at h; cases h; exact e1
          | some xs =>
            simp only [hR, Res.then_res] at h
            cases h
            exact e1.trans (mevolve_mpush init s1 _)
    | map kt et o =>
      cases o with
      | none => simp only [marshal] at h; cases h; exact mevolve_mpush init s _
      | some entries =>
        simp only [marshal] at h
        by_cases hk : isMapKeyTypeSupported kt
        · simp only [hk, not_true, if_neg, ite_false, Bool.not_true] at h
          cases hR : marshalMapEntries (fun s v => marshal c fuel s v false) s entries with
          | fuelOut => simp [hR, Res.then] at h
          | fatal e => simp [hR, Res.then] at h
          | res s1 ents =>
            simp only [hR, Res.then_res] at h
            cases h
            exact (marshalMapEntries_evolve MEvolve.refl (fun h1 h2 => h1.trans h2) _ hM
              entries s s1 ents hR).trans (mevolve_mpush init s1 _)
        · simp only [hk] at h
          cases hs : c.strict with
          | true => simp [hs] at h
          | false => simp only [hs, if_false, Bool.false_eq_true, ite_false] at h; cases h; exact MEvolve.refl s
    | iface o =>
      cases o with
      | none => simp only [marshal] at h; cases h; exact mevolve_mpush init s _
      | some p =>
        obtain ⟨t, w⟩ := p
        simp only [marshal] at h
        cases hl : lookupTypeName c.types t with
        | none => simp [hl] at h
        | some name =>
          simp only [hl] at h
          cases hw : marshal c fuel s w false with
          | fuelOut => simp [hw, Res.then] at h
          | fatal e => simp [hw, Res.then] at h
          | res s1 x =>
            cases x with
            | none => simp [hw, Res.then] at h
            | some x =>
              simp only [hw, Res.then_res] at h
              cases h
              exact (ih s w false s1 _ hw).trans (mevolve_mpush init s1 _)
    | ptr o =>
      cases o with
      | none => simp only [marshal] at h; cases h; exact mevolve_mpush init s _
      | some a =>
        simp only [marshal] at h
        cases hl : lookupRef s.refs a with
        | some i => simp only [hl] at h; cases h; exact MEvolve.refl s
        | none =>
          simp only [hl] at h
          cases ht : marshal c fuel ⟨(a, s.objects.length) :: s.refs, s.objects ++ [Obj.null]⟩
              (c.heap.getD a (.strukt [])) false with
          | fuelOut => rw [ht] at h; simp [Res.then] at h
          | fatal e => rw [ht] at h; simp [Res.then] at h
          | res s2 x? =>
            have e2 := ih _ _ _ _ _ ht
            have hlen : s.objects.length + 1 ≤ s2.objects.length := by
              have := e2.1
              simpa using this
            have hpres : ∀ a' i', lookupRef s.refs a' = some i' →
                lookupRef s2.refs a' = some i' := by
              intro a' i' h'
              have hne : a' ≠ a := by
                intro e
                rw [e, hl] at h'
                exact nomatch h'
              have : lookupRef ((a, s.objects.length) :: s.refs) a' = some i' := by
                rw [lookupRef_cons_ne _ a a' s.objects.length hne]
                exact h'
              exact e2.2.1 a' i' this
            have hnd : (s.refs.map Prod.fst).Nodup → (s2.refs.map Prod.fst).Nodup := by
              intro hn
              apply e2.2.2
              simp only [List.map_cons, List.nodup_cons]
              exact ⟨lookupRef_eq_none s.refs a hl, hn⟩
            rw [ht] at h
            cases x? with
            | some x =>
              simp only [Res.then_res] at h
              cases h
              refine ⟨?_, hpres, hnd⟩
              show s.objects.length ≤ (s2.objects.set s.objects.length (objOrNull x)).length
              rw [List.length_set]
              omega
            | none =>
              simp only [Res.then_res] at h
              cases h
              refine ⟨?_, hpres, hnd⟩
              show s.objects.length ≤ (List.take s.objects.length s2.objects).length
              rw [List.length_take]
              omega
    | unsupported t =>
      simp only [marshal] at h
      cases hs : c.strict with
      | true => simp [hs] at h
      | false => simp only [hs, Bool.false_eq_true, ite_false, if_false] at h; cases h; exact MEvolve.refl s

/-! ## Fuel monotonicity (towards the termination clause of C2) -/

/-- If the step function's results are stable on non-fuel-out inputs, so is
the field loop's result. -/
theorem marshalFields_mono {M M' : MState → Val → Res MState (Option (Option Obj))}
    (hMM : ∀ s v, M s v ≠ .fuelOut → M' s v = M s v) :
    ∀ (fields : List (String × Val)) (s : MState),
      marshalFields M s fields ≠ .fuelOut →
      marshalFields M' s fields = marshalFields M s fields := by
  intro fields
  induction fields with
  | nil => intro s _; rfl
  | cons a rest ih =>
    obtain ⟨name, v⟩ := a
    intro s h
    rw [marshalFields_cons M s name v rest] at h
    rw [marshalFields_cons M' s name v rest, marshalFields_cons M s name v rest]
    cases hM1 : M s v with
    | fuelOut => rw [hM1] at h; simp [Res.then] at h
    | fatal e =>
      rw [hMM s v (by rw [hM1]; exact fun hc => nomatch hc), hM1]
      rfl
    | res s1 r =>
      rw [hM1] at h
      rw [hMM s v (by rw [hM1]; exact fun hc => nomatch hc), hM1]
      simp only [Res.then_res] at h ⊢
      cases r with
      | none => exact ih s1 h
      | some x =>
        cases x with
        | none => exact ih s1 h
        | some x =>
          have hrest : marshalFields M s1 rest ≠ .fuelOut := by
            intro e
            rw [e] at h
            simp [Res.then] at h
          rw [ih s1 hrest]
  
/-- If the step function's results are stable on non-fuel-out inputs, so is
the element loop's result. -/
theorem marshalSeq_mono {M M' : MState → Val → Res MState (Option (Option Obj))}
    (hMM : ∀ s v, M s v ≠ .fuelOut → M' s v = M s v) :
    ∀ (es : List Val) (s : MState) (first : Bool),
      marshalSeq M s es first ≠ .fuelOut →
      marshalSeq M' s es first = marshalSeq M s es first := by
  intro es
  induction es with
  | nil => intro s first _; rfl
  | cons v rest ih =>
    intro s first h
    rw [marshalSeq_cons M s v rest first] at h
    rw [marshalSeq_cons M' s v rest first, marshalSeq_cons M s v rest first]
    cases hM1 : M s v with
    | fuelOut => rw [hM1] at h; simp [Res.then] at h
    | fatal e =>
      rw [hMM s v (by rw [hM1]; exact fun hc => nomatch hc), hM1]
      rfl
    | res s1 r =>
      rw [hM1] at h
      rw [hMM s v (by rw [hM1]; exact fun hc => nomatch hc), hM1]
      simp only [Res.then_res] at h ⊢
      cases r with
      | none => rfl
      | some x =>
        have hrest : marshalSeq M s1 rest false ≠ .fuelOut := by
          intro e
          rw [e] at h
          simp [Res.then] at h
        rw [ih s1 false hrest]

/-- If the step function's results are stable on non-fuel-out inputs, so is
the map-entry loop's result. -/
theorem marshalMapEntries_mono {M M' : MState → Val → Res MState (Option (Option Obj))}
    (hMM : ∀ s v, M s v ≠ .fuelOut → M' s v = M s v) :
    ∀ (entries : List (Val × Val)) (s : MState),
      marshalMapEntries M s entries ≠ .fuelOut →
      marshalMapEntries M' s entries = marshalMapEntries M s entries := by
  intro entries
  induction entries with
  | nil => intro s _; rfl
  | cons a rest ih =>
    obtain ⟨k, v⟩ := a
    intro s h
    rw [marshalMapEntries_cons M s k v rest] at h
    rw [marshalMapEntries_cons M' s k v rest, marshalMapEntries_cons M s k v rest]
    cases hM1 : M s v with
    | fuelOut => rw [hM1] at h; simp [Res.then] at h
    | fatal e =>
      rw [hMM s v (by rw [hM1]; exact fun hc => nomatch hc), hM1]
      rfl
    | res s1 r =>
      rw [hM1] at h
      rw [hMM s v (by rw [hM1]; exact fun hc => nomatch hc), hM1]
      simp only [Res.then_res] at h ⊢
      cases r with
      | none => exact ih s1 h
      | some x =>
        have hrest : marshalMapEntries M s1 rest ≠ .fuelOut := by
          intro e
          rw [e] at h
          simp [Res.then] at h
        rw [ih s1 hrest]

/-- One more unit of fuel never changes an encoder result that did not run
out of fuel. -/
theorem marshal_mono (c : MCtx) :
    ∀ (fuel : Nat) (s : MState) (v : Val) (init : Bool),
      marshal c fuel s v init ≠ .fuelOut →
      marshal c (fuel + 1) s v init = marshal c fuel s v init := by
  intro fuel
  induction fuel with
  | zero => intro s v init h; exact absurd rfl h
  | succ fuel ih =>
    have hstep : ∀ (s : MState) (v : Val),
        (fun s v => marshal c fuel s v false) s v ≠ .fuelOut →
        (fun s v => marshal c (fuel + 1) s v false) s v =
          (fun s v => marshal c fuel s v false) s v :=
      fun s v h => ih s v false h
    intro s v init h
    cases v with
    | bool b => rfl
    | int i => rfl
    | uint n => rfl
    | float q => rfl
    | str t => rfl
    | unsupported t => rfl
    | strukt fields =>
      simp only [marshal] at h ⊢
      have hf : marshalFields (fun s v => marshal c fuel s v false) s fields ≠ .fuelOut := by
        intro e
        rw [e] at h
        exact h rfl
      rw [marshalFields_mono hstep fields s hf]
    | array es =>
      simp only [marshal] at h ⊢
      have hf : marshalSeq (fun s v => marshal c fuel s v false) s es true ≠ .fuelOut := by
        intro e
        rw [e] at h
        exact h rfl
      rw [marshalSeq_mono hstep es s true hf]
    | slice o =>
      cases o with
      | none => rfl
      | some es =>
        simp only [marshal] at h ⊢
        have hf : marshalSeq (fun s v => marshal c fuel s v false) s es true ≠ .fuelOut := by
          intro e
          rw [e] at h
          exact h rfl
        rw [marshalSeq_mono hstep es s true hf]
    | map kt et o =>
      cases o with
      | none => rfl
      | some entries =>
        simp only [marshal] at h ⊢
        by_cases hk : isMapKeyTypeSupported kt
        · simp only [hk, not_true, if_neg, ite_false, Bool.not_true, not_false_iff] at h ⊢
          have hf : marshalMapEntries (fun s v => marshal c fuel s v false) s entries ≠
              .fuelOut := by
            intro e
            rw [e] at h
            exact h rfl
          rw [marshalMapEntries_mono hstep entries s hf]
        · simp [hk]
    | iface o =>
      cases o with
      | none => rfl
      | some p =>
        obtain ⟨t, w⟩ := p
        simp only [marshal] at h ⊢
        cases hl : lookupTypeName c.types t with
        | none => simp [hl]
        | some name =>
          simp only [hl] at h ⊢
          have hw : marshal c fuel s w false ≠ .fuelOut := by
            intro e
            rw [e] at h
            exact h rfl
          rw [ih s w false hw]
    | ptr o =>
      cases o with
      | none => rfl
      | some a =>
        simp only [marshal] at h ⊢
        cases hl : lookupRef s.refs a with
        | some i => simp [hl]
        | none =>
          simp only [hl] at h ⊢
          have ht : marshal c fuel ⟨(a, s.objects.length) :: s.refs, s.objects ++ [Obj.null]⟩
              (c.heap.getD a (.strukt [])) false ≠ .fuelOut := by
            intro e
            rw [e] at h
            exact h rfl
          rw [ih _ _ false ht]

/-- Any amount of additional fuel preserves a result that did not run out
of fuel. -/
theorem marshal_mono_le (c : MCtx) (fuel fuel' : Nat) (hle : fuel ≤ fuel')
    (s : MState) (v : Val) (init : Bool) (h : marshal c fuel s v init ≠ .fuelOut) :
    marshal c fuel' s v init = marshal c fuel s v init := by
  induction fuel', hle using Nat.le_induction with
  | base => rfl
  | succ n hn ihn =>
    have : marshal c n s v init ≠ .fuelOut := by rw [ihn]; exact h
    rw [marshal_mono c n s v init this, ihn]

/-- Pointwise implication between filter predicates bounds the filtered
length. -/
theorem length_filter_mono {α : Type} (p q : α → Bool) :
    ∀ (l : List α), (∀ x ∈ l, p x = true → q x = true) →
      (l.filter p).length ≤ (l.filter q).length := by
  intro l
  induction l with
  | nil => intro _; simp
  | cons a t ih =>
    intro h
    have ht : ∀ x ∈ t, p x = true → q x = true :=
      fun x hx => h x (List.mem_cons_of_mem _ hx)
    by_cases hpa : p a = true
    · have hqa := h a (List.mem_cons_self _ _) hpa
      simp only [List.filter_cons, hpa, hqa, if_true, List.length_cons]
      exact Nat.succ_le_succ (ih ht)
    · by_cases hqa : q a = true
      · simp only [List.filter_cons, hpa, hqa, if_true, if_false, List.length_cons]
        exact Nat.le_succ_of_le (ih ht)
      · simp only [List.filter_cons, hpa, hqa, if_false]
        exact ih ht

/-- A pointwise-stronger filter that misses a member kept by the weaker one
is strictly shorter. -/
theorem length_filter_lt {α : Type} (p q : α → Bool) :
    ∀ (l : List α), (∀ x ∈ l, p x = true → q x = true) →
      ∀ a ∈ l, ¬ p a = true → q a = true →
      (l.filter p).length < (l.filter q).length := by
  intro l
  induction l with
  | nil => intro _ a ha; cases ha
  | cons b t ih =>
    intro h a ha hpa hqa
    have ht : ∀ x ∈ t, p x = true → q x = true :=
      fun x hx => h x (List.mem_cons_of_mem _ hx)
    rcases List.mem_cons.mp ha with heq | hat
    · subst heq
      simp only [List.filter_cons, hpa, hqa, if_true, if_false, List.length_cons]
      exact Nat.lt_succ_of_le (length_filter_mono p q t ht)
    · by_cases hpb : p b = true
      · have hqb := h b (List.mem_cons_self _ _) hpb
        simp only [List.filter_cons, hpb, hqb, if_true, List.length_cons]
        exact Nat.succ_lt_succ (ih ht a hat hpa hqa)
      · by_cases hqb : q b = true
        · simp only [List.filter_cons, hpb, hqb, if_true, if_false, List.length_cons]
          simp only [Bool.false_eq_true, if_false]
          exact Nat.lt_succ_of_le (Nat.le_of_lt (ih ht a hat hpa hqa))
        · simp only [List.filter_cons, hpb, hqb, if_false]
          simp only [Bool.false_eq_true, if_false]
          exact ih ht a hat hpa hqa

/-- The number of heap addresses that have no slot reservation yet: the
termination measure of the encoder's cycle-breaking rule. -/
def unvisited (c : MCtx) (s : MState) : Nat :=
  ((List.range c.heap.length).filter (fun a => (lookupRef s.refs a).isNone)).length

/-- State evolution never increases the number of unvisited addresses. -/
theorem unvisited_le_of_evolve {c : MCtx} {s s' : MState} (h : MEvolve s s') :
    unvisited c s' ≤ unvisited c s := by
  apply length_filter_mono
  intro x _ hx
  cases hl : lookupRef s.refs x with
  | none => simp
  | some i =>
    have := h.2.1 x i hl
    simp [this] at hx

/-- Reserving a slot for an in-range, previously unvisited address strictly
decreases the number of unvisited addresses. -/
theorem unvisited_lt_of_reserve (c : MCtx) (s : MState) (a i : Nat)
    (ha : a < c.heap.length) (hl : lookupRef s.refs a = none) :
    unvisited c ⟨(a, i) :: s.refs, s.objects ++ [Obj.null]⟩ < unvisited c s := by
  apply length_filter_lt
  · intro x _ hx
    by_cases hxa : x = a
    · subst hxa
      rw [show (MState.mk ((x, i) :: s.refs) (s.objects ++ [Obj.null])).refs =
        (x, i) :: s.refs from rfl, lookupRef_cons_self] at hx
      simp at hx
    · rw [show (MState.mk ((a, i) :: s.refs) (s.objects ++ [Obj.null])).refs =
        (a, i) :: s.refs from rfl, lookupRef_cons_ne s.refs a x i hxa] at hx
      exact hx
  · exact List.mem_range.mpr ha
  · rw [show (MState.mk ((a, i) :: s.refs) (s.objects ++ [Obj.null])).refs =
      (a, i) :: s.refs from rfl, lookupRef_cons_self]
    simp
  · simp [hl]

/-- If every field value can be encoded with some fuel from every reachable
state (reachability expressed by a step-closed predicate `P`), the whole
field loop can: per-element fuels combine by monotonicity. -/
theorem marshalFields_exists_fuel (c : MCtx) (P : MState → Prop)
    (Pstep : ∀ (fuel : Nat) (s : MState) (v : Val) (s' : MState) (r : Option (Option Obj)),
      marshal c fuel s v false = .res s' r → P s → P s') :
    ∀ (fields : List (String × Val)),
      (∀ (s : MState) (v : Val), (∃ n, (n, v) ∈ fields) → P s →
        ∃ fuel, marshal c fuel s v false ≠ .fuelOut) →
      ∀ s, P s →
        ∃ fuel, marshalFields (fun s v => marshal c fuel s v false) s fields ≠ .fuelOut := by
  intro fields
  induction fields with
  | nil =>
    intro _ s _
    exact ⟨0, fun hc => nomatch hc⟩
  | cons a rest ih =>
    obtain ⟨name, v⟩ := a
    intro IH s hP
    obtain ⟨f1, h1⟩ := IH s v ⟨name, List.mem_cons_self _ _⟩ hP
    cases hv : marshal c f1 s v false with
    | fuelOut => exact absurd hv h1
    | fatal e =>
      refine ⟨f1, fun hc => ?_⟩
      rw [marshalFields_cons, hv] at hc
      exact nomatch hc
    | res s1 r =>
      have hP1 : P s1 := Pstep f1 s v s1 r hv hP
      obtain ⟨f2, h2⟩ :=
        ih (fun s' v' hm hP' => IH s' v' (hm.imp fun n hn => List.mem_cons_of_mem _ hn) hP')
          s1 hP1
      refine ⟨max f1 f2, fun hc => ?_⟩
      have hv' : marshal c (max f1 f2) s v false = .res s1 r := by
        rw [marshal_mono_le c f1 (max f1 f2) (le_max_left _ _) s v false
          (by rw [hv]; exact fun hk => nomatch hk)]
        exact hv
      have hagree : ∀ (s' : MState) (v' : Val),
          marshal c f2 s' v' false ≠ .fuelOut →
          marshal c (max f1 f2) s' v' false = marshal c f2 s' v' false :=
        fun s' v' hne => marshal_mono_le c f2 (max f1 f2) (le_max_right _ _) s' v' false hne
      have h2' : marshalFields (fun s v => marshal c (max f1 f2) s v false) s1 rest ≠
          .fuelOut := by
        rw [@marshalFields_mono (fun s v => marshal c f2 s v false)
          (fun s v => marshal c (max f1 f2) s v false) hagree rest s1 h2]
        exact h2
      rw [marshalFields_cons, hv'] at hc
      simp only [Res.then_res] at hc
      cases r with
      | none => exact h2' hc
      | some x =>
        cases x with
        | none => exact h2' hc
        | some x =>
          have hc' : (marshalFields (fun s v => marshal c (max f1 f2) s v false) s1 rest).then
              (fun s2 entries => Res.res s2 ((Val.str name, x) :: entries)) = .fuelOut := hc
          cases hR : marshalFields (fun s v => marshal c (max f1 f2) s v false) s1 rest with
          | fuelOut => exact h2' hR
          | fatal e => rw [hR] at hc'; exact nomatch hc'
          | res s2 entries => rw [hR] at hc'; exact nomatch hc'

/-- Sequence analogue of `marshalFields_exists_fuel`. -/
theorem marshalSeq_exists_fuel (c : MCtx) (P : MState → Prop)
    (Pstep : ∀ (fuel : Nat) (s : MState) (v : Val) (s' : MState) (r : Option (Option Obj)),
      marshal c fuel s v false = .res s' r → P s → P s') :
    ∀ (es : List Val),
      (∀ (s : MState) (v : Val), v ∈ es → P s →
        ∃ fuel, marshal c fuel s v false ≠ .fuelOut) →
      ∀ s (first : Bool), P s →
        ∃ fuel, marshalSeq (fun s v => marshal c fuel s v false) s es first ≠ .fuelOut := by
  intro es
  induction es with
  | nil =>
    intro _ s first _
    exact ⟨0, fun hc => nomatch hc⟩
  | cons v rest ih =>
    intro IH s first hP
    obtain ⟨f1, h1⟩ := IH s v (List.mem_cons_self _ _) hP
    cases hv : marshal c f1 s v false with
    | fuelOut => exact absurd hv h1
    | fatal e =>
      refine ⟨f1, fun hc => ?_⟩
      rw [marshalSeq_cons, hv] at hc
      exact nomatch hc
    | res s1 r =>
      have hP1 : P s1 := Pstep f1 s v s1 r hv hP
      obtain ⟨f2, h2⟩ :=
        ih (fun s' v' hm hP' => IH s' v' (List.mem_cons_of_mem _ hm) hP') s1 false hP1
      refine ⟨max f1 f2, fun hc => ?_⟩
      have hv' : marshal c (max f1 f2) s v false = .res s1 r := by
        rw [marshal_mono_le c f1 (max f1 f2) (le_max_left _ _) s v false
          (by rw [hv]; exact fun hk => nomatch hk)]
        exact hv
      have hagree : ∀ (s' : MState) (v' : Val),
          marshal c f2 s' v' false ≠ .fuelOut →
          marshal c (max f1 f2) s' v' false = marshal c f2 s' v' false :=
        fun s' v' hne => marshal_mono_le c f2 (max f1 f2) (le_max_right _ _) s' v' false hne
      have h2' : marshalSeq (fun s v => marshal c (max f1 f2) s v false) s1 rest false ≠
          .fuelOut := by
        rw [@marshalSeq_mono (fun s v => marshal c f2 s v false)
          (fun s v => marshal c (max f1 f2) s v false) hagree rest s1 false h2]
        exact h2
      rw [marshalSeq_cons, hv'] at hc
      simp only [Res.then_res] at hc
      cases r with
      | none =>
        cases first with
        | true => exact nomatch hc
        | false => exact nomatch hc
      | some x =>
        have hc' : (marshalSeq (fun s v => marshal c (max f1 f2) s v false) s1 rest false).then
            (fun s2 xs? =>
              match xs? with
              | none => Res.res s2 none
              | some xs => Res.res s2 (some (objOrNull x :: xs))) = .fuelOut := hc
        cases hR : marshalSeq (fun s v => marshal c (max f1 f2) s v false) s1 rest false with
        | fuelOut => exact h2' hR
        | fatal e => rw [hR] at hc'; exact nomatch hc'
        | res s2 ys? => rw [hR] at hc'; cases ys? <;> exact nomatch hc'

/-- Map-entry analogue of `marshalFields_exists_fuel`. -/
theorem marshalMapEntries_exists_fuel (c : MCtx) (P : MState → Prop)
    (Pstep : ∀ (fuel : Nat) (s : MState) (v : Val) (s' : MState) (r : Option (Option Obj)),
      marshal c fuel s v false = .res s' r → P s → P s') :
    ∀ (entries : List (Val × Val)),
      (∀ (s : MState) (v : Val), (∃ k, (k, v) ∈ entries) → P s →
        ∃ fuel, marshal c fuel s v false ≠ .fuelOut) →
      ∀ s, P s →
        ∃ fuel, marshalMapEntries (fun s v => marshal c fuel s v false) s entries ≠
          .fuelOut := by
  intro entries
  induction entries with
  | nil =>
    intro _ s _
    exact ⟨0, fun hc => nomatch hc⟩
  | cons a rest ih =>
    obtain ⟨k, v⟩ := a
    intro IH s hP
    obtain ⟨f1, h1⟩ := IH s v ⟨k, List.mem_cons_self _ _⟩ hP
    cases hv : marshal c f1 s v false with
    | fuelOut => exact absurd hv h1
    | fatal e =>
      refine ⟨f1, fun hc => ?_⟩
      rw [marshalMapEntries_cons, hv] at hc
      exact nomatch hc
    | res s1 r =>
      have hP1 : P s1 := Pstep f1 s v s1 r hv hP
      obtain ⟨f2, h2⟩ :=
        ih (fun s' v' hm hP' => IH s' v' (hm.imp fun n hn => List.mem_cons_of_mem _ hn) hP')
          s1 hP1
      refine ⟨max f1 f2, fun hc => ?_⟩
      have hv' : marshal c (max f1 f2) s v false = .res s1 r := by
        rw [marshal_mono_le c f1 (max f1 f2) (le_max_left _ _) s v false
          (by rw [hv]; exact fun hk => nomatch hk)]
        exact hv
      have hagree : ∀ (s' : MState) (v' : Val),
          marshal c f2 s' v' false ≠ .fuelOut →
          marshal c (max f1 f2) s' v' false = marshal c f2 s' v' false :=
        fun s' v' hne => marshal_mono_le c f2 (max f1 f2) (le_max_right _ _) s' v' false hne
      have h2' : marshalMapEntries (fun s v => marshal c (max f1 f2) s v false) s1 rest ≠
          .fuelOut := by
        rw [@marshalMapEntries_mono (fun s v => marshal c f2 s v false)
          (fun s v => marshal c (max f1 f2) s v false) hagree rest s1 h2]
        exact h2
      rw [marshalMapEntries_cons, hv'] at hc
      simp only [Res.then_res] at hc
      cases r with
      | none => exact h2' hc
      | some x =>
        have hc' : (marshalMapEntries (fun s v => marshal c (max f1 f2) s v false) s1 rest).then
            (fun s2 entries2 => Res.res s2 ((k, objOrNull x) :: entries2)) = .fuelOut := hc
        cases hR : marshalMapEntries (fun s v => marshal c (max f1 f2) s v false) s1 rest with
        | fuelOut => exact h2' hR
        | fatal e => rw [hR] at hc'; exact nomatch hc'
        | res s2 entries2 => rw [hR] at hc'; exact nomatch hc'

/-- The encoder terminates on every value graph, cyclic ones included: some
finite fuel always suffices.  The induction is on the number of heap
addresses without a slot reservation (strictly decreased by the
reservation-before-recursion rule each time a pointer is followed) and, for
a fixed reservation count, on the structural size of the visited value. -/
theorem marshal_exists_fuel (c : MCtx) :
    ∀ (K N : Nat) (s : MState) (v : Val) (init : Bool),
      unvisited c s ≤ K → sizeOf v ≤ N →
      ∃ fuel, marshal c fuel s v init ≠ .fuelOut := by
  intro K
  induction K using Nat.strong_induction_on with
  | _ K ihK =>
  intro N
  induction N using Nat.strong_induction_on with
  | _ N ihN =>
  intro s v init hK hN
  have Pstep : ∀ (fuel : Nat) (s' : MState) (v' : Val) (s'' : MState)
      (r : Option (Option Obj)),
      marshal c fuel s' v' false = .res s'' r →
      unvisited c s' ≤ K → unvisited c s'' ≤ K :=
    fun fuel s' v' s'' r h hP =>
      le_trans (unvisited_le_of_evolve (marshal_evolve c fuel s' v' false s'' r h)) hP
  cases v with
  | bool b => exact ⟨1, fun hc => nomatch hc⟩
  | int i => exact ⟨1, fun hc => nomatch hc⟩
  | uint n => exact ⟨1, fun hc => nomatch hc⟩
  | float q => exact ⟨1, fun hc => nomatch hc⟩
  | str t => exact ⟨1, fun hc => nomatch hc⟩
  | unsupported t =>
    refine ⟨1, fun hc => ?_⟩
    simp only [marshal] at hc
    split at hc <;> exact nomatch hc
  | strukt fields =>
    have IHf : ∀ (s' : MState) (v' : Val), (∃ n, (n, v') ∈ fields) →
        unvisited c s' ≤ K → ∃ fuel, marshal c fuel s' v' false ≠ .fuelOut := by
      rintro s' v' ⟨n, hm⟩ hP
      have h1 : sizeOf (n, v') < sizeOf fields := List.sizeOf_lt_of_mem hm
      have h2 : sizeOf v' < sizeOf (n, v') := by
        simp only [Prod.mk.sizeOf_spec]
        omega
      have h3 : sizeOf (Val.strukt fields) = 1 + sizeOf fields := by simp
      exact ihN (sizeOf v') (by omega) s' v' false hP (le_refl _)
    obtain ⟨fuel, hf⟩ :=
      marshalFields_exists_fuel c (fun s => unvisited c s ≤ K) Pstep fields IHf s hK
    refine ⟨fuel + 1, fun hc => ?_⟩
    simp only [marshal] at hc
    cases hR : marshalFields (fun s v => marshal c fuel s v false) s fields with
    | fuelOut => exact hf hR
    | fatal e => rw [hR] at hc; exact nomatch hc
    | res s1 entries => rw [hR] at hc; exact nomatch hc
  | array es =>
    have IHf : ∀ (s' : MState) (v' : Val), v' ∈ es →
        unvisited c s' ≤ K → ∃ fuel, marshal c fuel s' v' false ≠ .fuelOut := by
      intro s' v' hm hP
      have h1 : sizeOf v' < sizeOf es := List.sizeOf_lt_of_mem hm
      have h3 : sizeOf (Val.array es) = 1 + sizeOf es := by simp
      exact ihN (sizeOf v') (by omega) s' v' false hP (le_refl _)
    obtain ⟨fuel, hf⟩ :=
      marshalSeq_exists_fuel c (fun s => unvisited c s ≤ K) Pstep es IHf s true hK
    refine ⟨fuel + 1, fun hc => ?_⟩
    simp only [marshal] at hc
    cases hR : marshalSeq (fun s v => marshal c fuel s v false) s es true with
    | fuelOut => exact hf hR
    | fatal e => rw [hR] at hc; exact nomatch hc
    | res s1 xs? => rw [hR] at hc; cases xs? <;> exact nomatch hc
  | slice o =>
    cases o with
    | none => exact ⟨1, fun hc => nomatch hc⟩
    | some es =>
      have IHf : ∀ (s' : MState) (v' : Val), v' ∈ es →
          unvisited c s' ≤ K → ∃ fuel, marshal c fuel s' v' false ≠ .fuelOut := by
        intro s' v' hm hP
        have h1 : sizeOf v' < sizeOf es := List.sizeOf_lt_of_mem hm
        have h3 : sizeOf (Val.slice (some es)) = 1 + (1 + sizeOf es) := by simp
        exact ihN (sizeOf v') (by omega) s' v' false hP (le_refl _)
      obtain ⟨fuel, hf⟩ :=
        marshalSeq_exists_fuel c (fun s => unvisited c s ≤ K) Pstep es IHf s true hK
      refine ⟨fuel + 1, fun hc => ?_⟩
      simp only [marshal] at hc
      cases hR : marshalSeq (fun s v => marshal c fuel s v false) s es true with
      | fuelOut => exact hf hR
      | fatal e => rw [hR] at hc; exact nomatch hc
      | res s1 xs? => rw [hR] at hc; cases xs? <;> exact nomatch hc
  | map kt et o =>
    cases o with
    | none => exact ⟨1, fun hc => nomatch hc⟩
    | some entries =>
      by_cases hk : isMapKeyTypeSupported kt
      · have IHf : ∀ (s' : MState) (v' : Val), (∃ k, (k, v') ∈ entries) →
            unvisited c s' ≤ K → ∃ fuel, marshal c fuel s' v' false ≠ .fuelOut := by
          rintro s' v' ⟨k, hm⟩ hP
          have h1 : sizeOf (k, v') < sizeOf entries := List.sizeOf_lt_of_mem hm
          have h2 : sizeOf v' < sizeOf (k, v') := by
            simp only [Prod.mk.sizeOf_spec]
            omega
          have h3 : sizeOf (Val.map kt et (some entries)) =
              1 + sizeOf kt + sizeOf et + (1 + sizeOf entries) := by simp
          exact ihN (sizeOf v') (by omega) s' v' false hP (le_refl _)
        obtain ⟨fuel, hf⟩ :=
          marshalMapEntries_exists_fuel c (fun s => unvisited c s ≤ K) Pstep entries IHf s hK
        refine ⟨fuel + 1, fun hc => ?_⟩
        simp only [marshal, hk, not_true, Bool.not_true, if_neg, ite_false] at hc
        cases hR : marshalMapEntries (fun s v => marshal c fuel s v false) s entries with
        | fuelOut => exact hf hR
        | fatal e => rw [hR] at hc; exact nomatch hc
        | res s1 ents => rw [hR] at hc; exact nomatch hc
      · refine ⟨1, fun hc => ?_⟩
        simp only [marshal, hk] at hc
        cases hs : c.strict with
        | true => simp [hs] at hc
        | false =>
          simp only [hs, if_false, Bool.false_eq_true, ite_false] at hc
          exact nomatch hc
  | iface o =>
    cases o with
    | none => exact ⟨1, fun hc => nomatch hc⟩
    | some p =>
      obtain ⟨t, w⟩ := p
      cases hl : lookupTypeName c.types t with
      | none =>
        refine ⟨1, fun hc => ?_⟩
        simp only [marshal, hl] at hc
        exact nomatch hc
      | some name =>
        have hsz : sizeOf w < sizeOf (Val.iface (some (t, w))) := by
          have h3 : sizeOf (Val.iface (some (t, w))) = 1 + (1 + (1 + sizeOf t + sizeOf w)) := by
            simp
          omega
        obtain ⟨fw, hw⟩ := ihN (sizeOf w) (by omega) s w false hK (le_refl _)
        refine ⟨fw + 1, fun hc => ?_⟩
        simp only [marshal, hl] at hc
        cases hW : marshal c fw s w false with
        | fuelOut => exact hw hW
        | fatal e => rw [hW] at hc; exact nomatch hc
        | res s1 x => rw [hW] at hc; cases x <;> exact nomatch hc
  | ptr o =>
    cases o with
    | none => exact ⟨1, fun hc => nomatch hc⟩
    | some a =>
      cases hl : lookupRef s.refs a with
      | some i =>
        refine ⟨1, fun hc => ?_⟩
        simp only [marshal, hl] at hc
        exact nomatch hc
      | none =>
        by_cases ha : a < c.heap.length
        · have hdec := unvisited_lt_of_reserve c s a s.objects.length ha hl
          obtain ⟨ft, hft⟩ := ihK (unvisited c ⟨(a, s.objects.length) :: s.refs,
              s.objects ++ [Obj.null]⟩) (lt_of_lt_of_le hdec hK)
            (sizeOf (c.heap.getD a (.strukt [])))
            ⟨(a, s.objects.length) :: s.refs, s.objects ++ [Obj.null]⟩
            (c.heap.getD a (.strukt [])) false (le_refl _) (le_refl _)
          refine ⟨ft + 1, fun hc => ?_⟩
          simp only [marshal, hl] at hc
          cases hT : marshal c ft ⟨(a, s.objects.length) :: s.refs, s.objects ++ [Obj.null]⟩
              (c.heap.getD a (.strukt [])) false with
          | fuelOut => exact hft hT
          | fatal e => rw [hT] at hc; exact nomatch hc
          | res s2 x => rw [hT] at hc; cases x <;> exact nomatch hc
        · have htgt : c.heap.getD a (.strukt []) = .strukt [] :=
            List.getD_eq_default _ _ (Nat.le_of_not_lt ha)
          refine ⟨2, fun hc => ?_⟩
          simp only [marshal, hl, htgt] at hc
          exact nomatch hc

/-- C2.  Encoder slot-reservation invariant.  On the first encounter of
pointer address `a` (no binding in `refs` yet): (i) the next free slot index
`s.objects.length` is recorded for `a` and a placeholder slot is appended
*before* the recursion into the target's contents — the recursive call
starts from the reserved state; (ii) the reserved state already resolves
`a` to that index; (iii) the binding survives every recursive step, so
(iv) any subsequent encounter of `a` — cyclic encounters inside the
recursion included — returns the bound index with the state untouched,
never re-encoding the target; (v) every step preserves distinctness of the
bound addresses, so each distinct target occupies at most one slot; and
(vi) the encoder terminates: some finite fuel suffices, cyclic graphs
included. -/
theorem encoder_slot_reservation (c : MCtx) (fuel : Nat) (s : MState) (a : Nat)
    (init : Bool) (hl : lookupRef s.refs a = none) :
    marshal c (fuel + 1) s (.ptr (some a)) init =
      (marshal c fuel ⟨(a, s.objects.length) :: s.refs, s.objects ++ [Obj.null]⟩
          (c.heap.getD a (.strukt [])) false).then (fun s2 r =>
        match r with
        | some x =>
          .res ⟨s2.refs, s2.objects.set s.objects.length (objOrNull x)⟩
            (some (some (.int (Int.ofNat s.objects.length))))
        | none => .res ⟨s2.refs, s2.objects.take s.objects.length⟩ none) ∧
    lookupRef ((a, s.objects.length) :: s.refs) a = some s.objects.length ∧
    (∀ g s1 v s2 r i, marshal c g s1 v false = .res s2 r →
      lookupRef s1.refs a = some i → lookupRef s2.refs a = some i) ∧
    (∀ g s1 i, lookupRef s1.refs a = some i →
      marshal c (g + 1) s1 (.ptr (some a)) false =
        .res s1 (some (some (.int (Int.ofNat i))))) ∧
    (∀ g s1 v b s2 r, marshal c g s1 v b = .res s2 r →
      (s1.refs.map Prod.fst).Nodup → (s2.refs.map Prod.fst).Nodup) ∧
    (∃ F, marshal c F s (.ptr (some a)) init ≠ .fuelOut) := by
  refine ⟨?_, lookupRef_cons_self s.refs a s.objects.length, ?_, ?_, ?_, ?_⟩
  · simp only [marshal, hl]
  · exact fun g s1 v s2 r i h hi => (marshal_evolve c g s1 v false s2 r h).2.1 a i hi
  · intro g s1 i hi
    simp only [marshal, hi]
  · exact fun g s1 v b s2 r h => (marshal_evolve c g s1 v b s2 r h).2.2
  · exact marshal_exists_fuel c (unvisited c s) (sizeOf (Val.ptr (some a))) s
      (.ptr (some a)) init (le_refl _) (le_refl _)

/-- At a concrete one-cell heap: address 0 is initially unbound, and a later
encounter of the reserved pointer returns index 0 with the state unchanged. -/
theorem encoder_slot_reservation_witness :
    lookupRef (MState.mk [] []).refs 0 = none ∧
    marshal ⟨[Val.int 5], NewTypes, true⟩ 1 ⟨[(0, 0)], [Obj.null]⟩
        (.ptr (some 0)) false =
      .res ⟨[(0, 0)], [Obj.null]⟩ (some (some (.int (Int.ofNat 0)))) :=
  ⟨rfl, (encoder_slot_reservation ⟨[Val.int 5], NewTypes, true⟩ 0 ⟨[], []⟩ 0 true
      rfl).2.2.2.1 0 ⟨[(0, 0)], [Obj.null]⟩ 0 rfl⟩

/-- C10.  When the target of a freshly reserved pointer fails to encode
(lenient-mode "absent"), the encoder truncates the object list back to its
length from before the reservation and reports the pointer itself as
absent, but the identity-to-slot binding for the pointer is NOT removed:
it still resolves to the now-retired slot index, and a later encounter of
the same pointer during the same call returns that retired index. -/
theorem failed_pointer_keeps_refs_entry (c : MCtx) (fuel : Nat) (s : MState)
    (a : Nat) (init : Bool) (s2 : MState)
    (hl : lookupRef s.refs a = none)
    (ht : marshal c fuel ⟨(a, s.objects.length) :: s.refs, s.objects ++ [Obj.null]⟩
      (c.heap.getD a (.strukt [])) false = .res s2 none) :
    marshal c (fuel + 1) s (.ptr (some a)) init =
      .res ⟨s2.refs, s2.objects.take s.objects.length⟩ none ∧
    lookupRef s2.refs a = some s.objects.length ∧
    (s2.objects.take s.objects.length).length = s.objects.length ∧
    (∀ g, marshal c (g + 1) ⟨s2.refs, s2.objects.take s.objects.length⟩
        (.ptr (some a)) false =
      .res ⟨s2.refs, s2.objects.take s.objects.length⟩
        (some (some (.int (Int.ofNat s.objects.length))))) := by
  have hev := marshal_evolve c fuel ⟨(a, s.objects.length) :: s.refs,
      s.objects ++ [Obj.null]⟩ (c.heap.getD a (.strukt [])) false s2 none ht
  have h2 : lookupRef s2.refs a = some s.objects.length :=
    hev.2.1 a s.objects.length (lookupRef_cons_self s.refs a s.objects.length)
  have hlen : s.objects.length + 1 ≤ s2.objects.length := by
    have h1 := hev.1
    simp only [List.length_append, List.length_singleton] at h1
    exact h1
  refine ⟨?_, h2, ?_, ?_⟩
  · simp only [marshal, hl, ht, Res.then_res]
  · rw [List.length_take]
    omega
  · intro g
    simp only [marshal, h2]

/-- At a concrete heap whose one cell holds an unsupported (func) value, in
lenient mode: encoding the root pointer truncates the list back to empty and
reports absent, yet address 0 stays bound to the retired slot 0 and a later
encounter returns index 0. -/
theorem failed_pointer_keeps_refs_entry_witness :
    lookupRef ([] : List (Nat × Nat)) 0 = none ∧
    marshal ⟨[Val.unsupported .func], NewTypes, false⟩ 1 ⟨[(0, 0)], [Obj.null]⟩
        (Val.unsupported .func) false = .res ⟨[(0, 0)], [Obj.null]⟩ none ∧
    marshal ⟨[Val.unsupported .func], NewTypes, false⟩ 2 ⟨[], []⟩
        (.ptr (some 0)) true = .res ⟨[(0, 0)], []⟩ none ∧
    lookupRef [(0, 0)] 0 = some 0 ∧
    marshal ⟨[Val.unsupported .func], NewTypes, false⟩ 1 ⟨[(0, 0)], []⟩
        (.ptr (some 0)) false =
      .res ⟨[(0, 0)], []⟩ (some (some (.int (Int.ofNat 0)))) := by
  have h := failed_pointer_keeps_refs_entry ⟨[Val.unsupported .func], NewTypes, false⟩
    1 ⟨[], []⟩ 0 true ⟨[(0, 0)], [Obj.null]⟩ rfl rfl
  exact ⟨rfl, rfl, h.1, h.2.1, h.2.2.2 0⟩

/-- Evolution of the decoder state across one recursive step: the heap never
shrinks, the memo keeps its length, and a memo entry, once set, survives
with its address. -/
def UEvolve (st st' : UState) : Prop :=
  st.heap.length ≤ st'.heap.length ∧
  st'.memo.length = st.memo.length ∧
  (∀ i a, st.memo.getD i none = some a → st'.memo.getD i none = some a)

theorem uevolve_refl (st : UState) : UEvolve st st :=
  ⟨le_refl _, rfl, fun _ _ h => h⟩

theorem uevolve_trans {s1 s2 s3 : UState} (h1 : UEvolve s1 s2) (h2 : UEvolve s2 s3) :
    UEvolve s1 s3 :=
  ⟨h1.1.trans h2.1, h2.2.1.trans h1.2.1, fun i a h => h2.2.2 i a (h1.2.2 i a h)⟩

/-- The decoder's field loop preserves any reflexive-transitive evolution
property of its step function. -/
theorem unmarshalFields_evolve {E : UState → UState → Prop}
    (hrefl : ∀ s, E s s) (htrans : ∀ {s1 s2 s3}, E s1 s2 → E s2 s3 → E s1 s3)
    (u : UState → Obj → Ty → Val → Res UState Val)
    (hU : ∀ st x t cur st' v, u st x t cur = .res st' v → E st st') :
    ∀ (ftys : List (String × Ty)) (entries : List (Val × Obj)) (st : UState)
      (cur : List (String × Val)) (st' : UState) (out : List (String × Val)),
      unmarshalFields u st ftys entries cur = .res st' out → E st st' := by
  intro ftys
  induction ftys with
  | nil =>
    intro entries st cur st' out h
    simp only [unmarshalFields] at h
    cases h
    exact hrefl st
  | cons p rest ih =>
    obtain ⟨name, fty⟩ := p
    intro entries st cur st' out h
    simp only [unmarshalFields] at h
    split at h
    · exact ih entries st cur st' out h
    · rename_i x hf
      split at h
      · exact nomatch h
      · exact nomatch h
      · rename_i st1 v hu
        exact htrans (hU st x fty _ st1 v hu) (ih entries st1 _ st' out h)

/-- The decoder's element loop preserves any reflexive-transitive evolution
property of its step function. -/
theorem unmarshalElems_evolve {E : UState → UState → Prop}
    (hrefl : ∀ s, E s s) (htrans : ∀ {s1 s2 s3}, E s1 s2 → E s2 s3 → E s1 s3)
    (u : UState → Obj → Ty → Val → Res UState Val)
    (hU : ∀ st x t cur st' v, u st x t cur = .res st' v → E st st') :
    ∀ (xs : List Obj) (t : Ty) (st : UState) (cur : List Val) (st' : UState)
      (out : List Val),
      unmarshalElems u st xs t cur = .res st' out → E st st' := by
  intro xs
  induction xs with
  | nil =>
    intro t st cur st' out h
    simp only [unmarshalElems] at h
    cases h
    exact hrefl st
  | cons x rest ih =>
    intro t st cur st' out h
    simp only [unmarshalElems] at h
    split at h
    · split at h
      · exact nomatch h
      · exact nomatch h
      · rename_i st1 vs hr
        cases h
        exact ih t st cur.tail _ _ hr
    · split at h
      · exact nomatch h
      · exact nomatch h
      · rename_i st1 v hu
        split at h
        · exact nomatch h
        · exact nomatch h
        · rename_i st2 vs hr
          cases h
          exact htrans (hU st x t _ _ _ hu) (ih t _ cur.tail _ _ hr)

/-- The decoder's map-entry loop preserves any reflexive-transitive
evolution property of its step function. -/
theorem unmarshalMapEntries_evolve {E : UState → UState → Prop}
    (hrefl : ∀ s, E s s) (htrans : ∀ {s1 s2 s3}, E s1 s2 → E s2 s3 → E s1 s3)
    (u : UState → Obj → Ty → Val → Res UState Val)
    (hU : ∀ st x t cur st' v, u st x t cur = .res st' v → E st st') :
    ∀ (entries : List (Val × Obj)) (et : Ty) (st : UState) (acc : List (Val × Val))
      (st' : UState) (out : List (Val × Val)),
      unmarshalMapEntries u st entries et acc = .res st' out → E st st' := by
  intro entries
  induction entries with
  | nil =>
    intro et st acc st' out h
    simp only [unmarshalMapEntries] at h
    cases h
    exact hrefl st
  | cons p rest ih =>
    obtain ⟨k, x⟩ := p
    intro et st acc st' out h
    simp only [unmarshalMapEntries] at h
    split at h
    · exact ih et st _ st' out h
    · split at h
      · exact nomatch h
      · exact nomatch h
      · rename_i st1 v hu
        exact htrans (hU st x et _ st1 v hu) (ih et st1 _ st' out h)

/-- Setting a memo entry within bounds makes it readable. -/
theorem getD_set_self (l : List (Option Nat)) (i : Nat) (a : Nat)
    (h : i < l.length) : (l.set i (some a)).getD i none = some a := by
  simp [List.getD_eq_getElem?_getD, List.getElem?_set_self, h]

/-- Setting one memo entry leaves the others alone. -/
theorem getD_set_ne (l : List (Option Nat)) (i j : Nat) (x : Option Nat)
    (h : i ≠ j) : (l.set i x).getD j none = l.getD j none := by
  simp [List.getD_eq_getElem?_getD, List.getElem?_set_ne h]

/-- Every decoder step evolves the state: the heap only grows, the memo
keeps its length, and every memo entry already set survives -- in
particular the address cached for a slot at its first materialization is
still cached after any amount of further decoding. -/
theorem unmarshal_evolve (c : UCtx) :
    ∀ (fuel : Nat) (st : UState) (src : Obj) (t : Ty) (cur : Val) (st' : UState)
      (v : Val), unmarshal c fuel st src t cur = .res st' v → UEvolve st st' := by
  intro fuel
  induction fuel with
  | zero => intro st src t cur st' v h; exact nomatch h
  | succ fuel ih =>
    intro st src t cur st' v h
    cases t with
    | bool =>
      simp only [unmarshal] at h
      split at h
      · cases h; exact uevolve_refl st
      · exact nomatch h
    | int =>
      simp only [unmarshal] at h
      split at h
      · cases h; exact uevolve_refl st
      · exact nomatch h
    | uint =>
      simp only [unmarshal] at h
      split at h
      · cases h; exact uevolve_refl st
      · exact nomatch h
    | float =>
      simp only [unmarshal] at h
      split at h
      · cases h; exact uevolve_refl st
      · exact nomatch h
    | string =>
      simp only [unmarshal] at h
      split at h
      · cases h; exact uevolve_refl st
      · exact nomatch h
    | strukt ftys =>
      simp only [unmarshal] at h
      split at h
      · rename_i entries
        split at h
        · exact nomatch h
        · exact nomatch h
        · rename_i st1 fs hr
          cases h
          exact unmarshalFields_evolve uevolve_refl (fun h1 h2 => uevolve_trans h1 h2)
            (fun st x t cur => unmarshal c fuel st x t cur)
            (fun st x t cur st' v hh => ih st x t cur st' v hh)
            ftys entries st _ _ _ hr
      · exact nomatch h
    | array n t =>
      simp only [unmarshal] at h
      split at h
      · rename_i xs
        split at h
        · split at h
          · exact nomatch h
          · exact nomatch h
          · rename_i st1 vs hr
            cases h
            exact unmarshalElems_evolve uevolve_refl (fun h1 h2 => uevolve_trans h1 h2)
              (fun st x t cur => unmarshal c fuel st x t cur)
              (fun st x t cur st' v hh => ih st x t cur st' v hh)
              xs t st _ _ _ hr
        · exact nomatch h
      · exact nomatch h
    | slice t =>
      simp only [unmarshal] at h
      split at h
      · rename_i xs
        split at h
        · exact nomatch h
        · exact nomatch h
        · rename_i st1 vs hr
          cases h
          exact unmarshalElems_evolve uevolve_refl (fun h1 h2 => uevolve_trans h1 h2)
            (fun st x t cur => unmarshal c fuel st x t cur)
            (fun st x t cur st' v hh => ih st x t cur st' v hh)
            xs t st _ _ _ hr
      · exact nomatch h
    | map kt et =>
      simp only [unmarshal] at h
      split at h
      · rename_i skt entries
        split at h
        · split at h
          · exact nomatch h
          · exact nomatch h
          · rename_i st1 es hr
            cases h
            exact unmarshalMapEntries_evolve uevolve_refl (fun h1 h2 => uevolve_trans h1 h2)
              (fun st x t cur => unmarshal c fuel st x t cur)
              (fun st x t cur st' v hh => ih st x t cur st' v hh)
              entries et st _ _ _ hr
        · exact nomatch h
      · exact nomatch h
    | iface =>
      simp only [unmarshal] at h
      split at h
      · rename_i entries
        split at h
        · rename_i name payload
          split at h
          · exact nomatch h
          · rename_i t2
            split at h
            · exact nomatch h
            · exact nomatch h
            · rename_i st1 v1 hr
              cases h
              exact ih _ _ _ _ _ _ hr
        · exact nomatch h
      · exact nomatch h
    | ptr et =>
      simp only [unmarshal] at h
      split at h
      · exact nomatch h
      · rename_i index hs
        split at h
        · exact nomatch h
        · rename_i hle
          split at h
          · rename_i a hm
            cases h
            exact uevolve_refl st
          · rename_i hm
            split at h
            · exact nomatch h
            · exact nomatch h
            · rename_i st2 v2 hrec
              cases h
              have e2 := ih _ _ _ _ _ _ hrec
              refine ⟨?_, ?_, ?_⟩
              · have h1 := e2.1
                simp only [List.length_append, List.length_singleton] at h1
                show st.heap.length ≤ (st2.heap.set st.heap.length v2).length
                rw [List.length_set]
                omega
              · have h2 := e2.2.1
                simp only [List.length_set] at h2
                exact h2
              · intro i a hset
                have hne : i ≠ index := by
                  intro e
                  rw [e, hm] at hset
                  exact nomatch hset
                have hkeep : (st.memo.set index (some st.heap.length)).getD i none =
                    some a := by
                  rw [getD_set_ne st.memo index i _ (Ne.symm hne)]
                  exact hset
                exact e2.2.2 i a hkeep
    | func => exact nomatch h
    | chan => exact nomatch h
    | rawPointer => exact nomatch h

/-- C3.  Decoder memoization invariant.  For a pointer destination whose
source normalizes to an in-range slot `index`: (i) on the first dereference
(memo entry still unset) the decoder allocates the instance at the end of
the heap and stores its address in the memo BEFORE recursing into the
slot's source -- the recursion starts from the updated memo, in which the
entry already resolves; (ii) on any later dereference (entry set to `a`)
the decoder returns the identical cached address with the state untouched,
so a slot is materialized at most once; (iii) a memo entry, once set,
survives every recursive step -- cyclic references reached during the
recursion therefore resolve to the same cached instance; and (iv)
`Unmarshal` starts from a heap holding only the destination and a memo
whose slot 0 is pre-seeded to the destination's address 0, all other slots
unset. -/
theorem decoder_memoization (c : UCtx) (fuel : Nat) (st : UState) (src : Obj)
    (et : Ty) (cur : Val) (index : Nat)
    (hs : slotIndex src = .ok index) (hb : index < st.memo.length) :
    (st.memo.getD index none = none →
      unmarshal c (fuel + 1) st src (.ptr et) cur =
        (match unmarshal c fuel ⟨st.heap ++ [zeroVal et],
            st.memo.set index (some st.heap.length)⟩
            (c.sources.getD index .null) et (zeroVal et) with
        | .fuelOut => .fuelOut
        | .fatal e => .fatal e
        | .res st2 v => .res ⟨st2.heap.set st.heap.length v, st2.memo⟩
            (.ptr (some st.heap.length))) ∧
      (st.memo.set index (some st.heap.length)).getD index none =
        some st.heap.length) ∧
    (∀ a, st.memo.getD index none = some a →
      unmarshal c (fuel + 1) st src (.ptr et) cur = .res st (.ptr (some a))) ∧
    (∀ g st1 x t cv st2 v, unmarshal c g st1 x t cv = .res st2 v →
      ∀ i a, st1.memo.getD i none = some a → st2.memo.getD i none = some a) ∧
    (∀ (s0 : Obj) (rest : List Obj) (dt : Ty) (d0 : Val) (ty : Types) (F : Nat),
      Unmarshal (s0 :: rest) (.ptr dt) d0 ty F =
        (match unmarshal ⟨ty, s0 :: rest⟩ F
            ⟨[d0], some 0 :: List.replicate rest.length none⟩ s0 dt d0 with
        | .fuelOut => none
        | .fatal e => some (.error e)
        | .res st1 v => some (.ok (⟨st1.heap.set 0 v, st1.memo⟩, v))) ∧
      (some 0 :: List.replicate rest.length none).getD 0 none = some 0 ∧
      [d0].getD 0 (zeroVal dt) = d0) := by
  refine ⟨?_, ?_, ?_, ?_⟩
  · intro hm
    refine ⟨?_, getD_set_self st.memo index st.heap.length hb⟩
    simp only [unmarshal, hs]
    rw [if_neg (not_le.mpr hb)]
    simp only [hm]
  · intro a hm
    simp only [unmarshal, hs]
    rw [if_neg (not_le.mpr hb)]
    simp only [hm]
  · exact fun g st1 x t cv st2 v hh i a hset =>
      (unmarshal_evolve c g st1 x t cv st2 v hh).2.2 i a hset
  · exact fun s0 rest dt d0 ty F => ⟨rfl, rfl, rfl⟩

/-- At a concrete one-slot source list: the first dereference of slot 0
allocates address 0' (here: heap end 0), caches it, recurses, and a second
dereference returns the cached address with the state unchanged; the
pre-seeded memo of `Unmarshal` resolves slot 0 out of the box. -/
theorem decoder_memoization_witness :
    slotIndex (Obj.uint 0) = .ok 0 ∧
    unmarshal ⟨NewTypes, [Obj.int 7]⟩ 2 ⟨[], [none]⟩ (.uint 0) (.ptr .int)
        (.ptr none) = .res ⟨[.int 7], [some 0]⟩ (.ptr (some 0)) ∧
    unmarshal ⟨NewTypes, [Obj.int 7]⟩ 2 ⟨[.int 7], [some 0]⟩ (.uint 0)
        (.ptr .int) (.ptr none) = .res ⟨[.int 7], [some 0]⟩ (.ptr (some 0)) ∧
    (some 0 :: List.replicate ([] : List Obj).length none).getD 0 none = some 0 := by
  have h1 := decoder_memoization ⟨NewTypes, [Obj.int 7]⟩ 1 ⟨[], [none]⟩ (.uint 0)
    .int (.ptr none) 0 rfl (by decide)
  have h2 := decoder_memoization ⟨NewTypes, [Obj.int 7]⟩ 1 ⟨[.int 7], [some 0]⟩
    (.uint 0) .int (.ptr none) 0 rfl (by decide)
  refine ⟨rfl, ?_, h2.2.1 0 rfl, (h1.2.2.2 (Obj.int 7) [] .int (.int 0) NewTypes 3).2.1⟩
  rw [(h1.1 rfl).1]
  rfl
